import Mathlib

/-!
# Verification of the npm-accel artifact cache core

Shallow embedding of `npm_accel/__init__.py` (class `NpmAccel`): fingerprint
computation (`get_cache_key`), cache population and retrieval, per-entry
metadata bookkeeping and least-recently-used eviction.

Modeling conventions:
* Python `str` values are modeled as `List Char` (Python compares strings
  lexicographically by Unicode code points, which `Char.toNat` exposes).
* Python byte strings are modeled as `List Nat` with each element `< 256`.
* Machine-level 32-bit arithmetic inside SHA-1 is `Nat` with explicit
  `% 2 ^ 32`.
* Fallible Python code (exceptions) is modeled with `Option`/`Except`.
-/

namespace NpmAccel

/-! ## Python string ordering

`sorted` in the source compares `(name, version)` tuples; tuple comparison is
lexicographic and string comparison is lexicographic by code point. -/

/-- Python `<` on strings: lexicographic comparison by code point. -/
def pyStrLt : List Char → List Char → Bool
  | [], [] => false
  | [], _ :: _ => true
  | _ :: _, [] => false
  | c :: cs, d :: ds =>
    if c.toNat < d.toNat then true
    else if c.toNat = d.toNat then pyStrLt cs ds
    else false

/-- Python `<=` on strings (`a <= b` iff `a < b` or `a == b`). -/
def pyStrLe (a b : List Char) : Bool := pyStrLt a b || a == b

theorem char_eq_of_toNat_eq {c d : Char} (h : c.toNat = d.toNat) : c = d :=
  Char.eq_of_val_eq (UInt32.toNat.inj h)

theorem pyStrLt_irrefl (a : List Char) : pyStrLt a a = false := by
  induction a with
  | nil => rfl
  | cons c cs ih => simp [pyStrLt, ih]

theorem pyStrLt_trans :
    ∀ {a b c : List Char}, pyStrLt a b = true → pyStrLt b c = true →
      pyStrLt a c = true
  | [], _ :: _, _ :: _, _, _ => rfl
  | x :: xs, y :: ys, z :: zs, hab, hbc => by
    simp only [pyStrLt] at hab hbc ⊢
    split at hab
    · rename_i hxy
      split at hbc
      · rename_i hyz
        simp [Nat.lt_trans hxy hyz]
      · split at hbc
        · rename_i hyz
          simp [hyz ▸ hxy]
        · exact absurd hbc (by simp)
    · split at hab
      · rename_i hxy
        split at hbc
        · rename_i hyz
          simp [hxy ▸ hyz]
        · split at hbc
          · rename_i hyz
            have h1 : ¬ x.toNat < z.toNat := by omega
            rw [if_neg h1, if_pos (hxy.trans hyz)]
            exact pyStrLt_trans hab hbc
          · exact absurd hbc (by simp)
      · exact absurd hab (by simp)

theorem pyStrLt_asymm {a b : List Char} (h : pyStrLt a b = true) :
    pyStrLt b a = false := by
  by_contra hcon
  have hba : pyStrLt b a = true := by
    cases hab : pyStrLt b a
    · exact absurd hab hcon
    · rfl
  have := pyStrLt_trans h hba
  rw [pyStrLt_irrefl] at this
  exact Bool.false_ne_true this

theorem pyStrLt_connex :
    ∀ {a b : List Char}, pyStrLt a b = false → pyStrLt b a = false → a = b
  | [], [], _, _ => rfl
  | [], _ :: _, hab, _ => by simp [pyStrLt] at hab
  | _ :: _, [], _, hba => by simp [pyStrLt] at hba
  | x :: xs, y :: ys, hab, hba => by
    simp only [pyStrLt] at hab hba
    split at hab
    · exact absurd hab (by simp)
    · split at hab
      · rename_i hxy' hxy
        have hyx : ¬ y.toNat < x.toNat := by omega
        rw [if_neg hyx, if_pos hxy.symm] at hba
        have := pyStrLt_connex hab hba
        rw [char_eq_of_toNat_eq hxy, this]
      · rename_i hxy' hxy
        have hyx : y.toNat < x.toNat := by omega
        simp [hyx] at hba

theorem pyStrLe_refl (a : List Char) : pyStrLe a a = true := by
  simp [pyStrLe]

theorem pyStrLe_total (a b : List Char) :
    pyStrLe a b = true ∨ pyStrLe b a = true := by
  simp only [pyStrLe, Bool.or_eq_true, beq_iff_eq]
  cases hab : pyStrLt a b
  · cases hba : pyStrLt b a
    · exact Or.inl (Or.inr (pyStrLt_connex hab hba))
    · exact Or.inr (Or.inl rfl)
  · exact Or.inl (Or.inl rfl)

theorem pyStrLe_antisymm {a b : List Char} (hab : pyStrLe a b = true)
    (hba : pyStrLe b a = true) : a = b := by
  simp only [pyStrLe, Bool.or_eq_true, beq_iff_eq] at hab hba
  rcases hab with hab | hab
  · rcases hba with hba | hba
    · exact absurd hba (by simp [pyStrLt_asymm hab])
    · exact hba.symm
  · exact hab

theorem pyStrLe_trans {a b c : List Char} (hab : pyStrLe a b = true)
    (hbc : pyStrLe b c = true) : pyStrLe a c = true := by
  simp only [pyStrLe, Bool.or_eq_true, beq_iff_eq] at hab hbc ⊢
  rcases hab with hab | hab
  · rcases hbc with hbc | hbc
    · exact Or.inl (pyStrLt_trans hab hbc)
    · exact Or.inl (hbc ▸ hab)
  · rcases hbc with hbc | hbc
    · exact Or.inl (hab ▸ hbc)
    · exact Or.inr (hab.trans hbc)

/-- A dependency item: a `(name, version)` pair of Python strings. -/
abbrev Dep := List Char × List Char

/-- Python `<=` on `(name, version)` tuples: lexicographic, name first. -/
def pyPairLe (a b : Dep) : Bool :=
  pyStrLt a.1 b.1 || (a.1 == b.1 && pyStrLe a.2 b.2)

/-- `pyPairLe` as a `Prop`-valued relation for `List.insertionSort`. -/
def depLE (a b : Dep) : Prop := pyPairLe a b = true

instance : DecidableRel depLE := fun _ _ => inferInstanceAs (Decidable (_ = true))

instance : IsTotal Dep depLE where
  total a b := by
    simp only [depLE, pyPairLe, Bool.or_eq_true, Bool.and_eq_true, beq_iff_eq]
    cases hab : pyStrLt a.1 b.1
    · cases hba : pyStrLt b.1 a.1
      · have h1 : a.1 = b.1 := pyStrLt_connex hab hba
        rcases pyStrLe_total a.2 b.2 with h2 | h2
        · exact Or.inl (Or.inr ⟨h1, h2⟩)
        · exact Or.inr (Or.inr ⟨h1.symm, h2⟩)
      · exact Or.inr (Or.inl rfl)
    · exact Or.inl (Or.inl rfl)

instance : IsTrans Dep depLE where
  trans a b c hab hbc := by
    simp only [depLE, pyPairLe, Bool.or_eq_true, Bool.and_eq_true,
      beq_iff_eq] at hab hbc ⊢
    rcases hab with hab | ⟨hab1, hab2⟩
    · rcases hbc with hbc | ⟨hbc1, _⟩
      · exact Or.inl (pyStrLt_trans hab hbc)
      · exact Or.inl (hbc1 ▸ hab)
    · rcases hbc with hbc | ⟨hbc1, hbc2⟩
      · exact Or.inl (hab1 ▸ hbc)
      · exact Or.inr ⟨hab1.trans hbc1, pyStrLe_trans hab2 hbc2⟩

instance : IsAntisymm Dep depLE where
  antisymm a b hab hba := by
    simp only [depLE, pyPairLe, Bool.or_eq_true, Bool.and_eq_true,
      beq_iff_eq] at hab hba
    rcases hab with hab | ⟨hab1, hab2⟩
    · rcases hba with hba | ⟨hba1, _⟩
      · exact absurd hba (by simp [pyStrLt_asymm hab])
      · rw [hba1, pyStrLt_irrefl] at hab
        exact absurd hab (by simp)
    · rcases hba with hba | ⟨hba1, hba2⟩
      · rw [hab1, pyStrLt_irrefl] at hba
        exact absurd hba (by simp)
      · exact Prod.ext hab1 (pyStrLe_antisymm hab2 hba2)

/-- Model of Python `sorted` on dependency items. Python's `sorted` is the
stable sort with respect to tuple `<`; for this (antisymmetric) comparison any
correct sort produces the same list, and `List.insertionSort` is used because
it evaluates by kernel reduction. -/
def pySortedDeps (deps : List Dep) : List Dep := List.insertionSort depLE deps

/-! ## Python `repr` of strings

`get_cache_key` serializes the sorted dependency items with
`repr(sorted(dependencies.items())).encode("ascii")`. CPython's `repr` of a
string picks a quote character, escapes backslashes, the quote, `\t`, `\n`,
`\r`, keeps printable characters and renders other characters as `\xNN` (or
`\uNNNN`/`\UNNNNNNNN`). The model below is faithful for strings made of ASCII
characters (code points < 128), which is the domain on which the subsequent
`.encode("ascii")` of the source is total for *printable* text; a string
holding a non-ASCII character is modeled as failing the ASCII encode (CPython
would escape the non-printable ones and keep the printable ones, making the
encode fail exactly on the latter). -/

/-- Lowercase hexadecimal digit, as produced by CPython's `\xNN` escapes and
by `hashlib`'s `hexdigest`. -/
def hexDigitChar (n : Nat) : Char := Char.ofNat (if n < 10 then 48 + n else 87 + n)

/-- Numeric value of a lowercase hexadecimal digit. -/
def hexVal (c : Char) : Nat := if c.toNat ≤ 57 then c.toNat - 48 else c.toNat - 87

theorem hexVal_hexDigitChar {n : Nat} (h : n < 16) : hexVal (hexDigitChar n) = n := by
  interval_cases n <;> rfl

/-- CPython's quote selection for `repr` of a string: a single quote unless
the string contains one and contains no double quote. -/
def quoteChoice (s : List Char) : Char :=
  if s.contains '\'' && !(s.contains '"') then '"' else '\''

theorem quoteChoice_cases (s : List Char) :
    quoteChoice s = '\'' ∨ quoteChoice s = '"' := by
  unfold quoteChoice
  split
  · exact Or.inr rfl
  · exact Or.inl rfl

/-- Escape of a single character inside a `repr` literal with quote `q`,
following CPython for ASCII characters. -/
def escChar (q c : Char) : List Char :=
  if c = q ∨ c = '\\' then ['\\', c]
  else if c = '\t' then ['\\', 't']
  else if c = '\n' then ['\\', 'n']
  else if c = '\r' then ['\\', 'r']
  else if 32 ≤ c.toNat ∧ c.toNat ≤ 126 then [c]
  else ['\\', 'x', hexDigitChar (c.toNat / 16), hexDigitChar (c.toNat % 16)]

/-- Body of the `repr` literal: every character escaped in order. -/
def escBody (q : Char) : List Char → List Char
  | [] => []
  | c :: cs => escChar q c ++ escBody q cs

/-- Decoder for `escBody`: recovers the original characters from the escaped
body. Used only to prove that the serialization is injective. -/
def unescBody (q : Char) : List Char → Option (List Char)
  | [] => some []
  | c :: rest =>
    if c = '\\' then
      match rest with
      | [] => none
      | e :: rest1 =>
        if e = 'x' then
          match rest1 with
          | d1 :: d2 :: rest2 =>
            (unescBody q rest2).map (fun t => Char.ofNat (16 * hexVal d1 + hexVal d2) :: t)
          | _ => none
        else if e = 't' then (unescBody q rest1).map (fun t => '\t' :: t)
        else if e = 'n' then (unescBody q rest1).map (fun t => '\n' :: t)
        else if e = 'r' then (unescBody q rest1).map (fun t => '\r' :: t)
        else (unescBody q rest1).map (fun t => e :: t)
    else (unescBody q rest).map (fun t => c :: t)

/-- A quote character is one of the two characters `quoteChoice` can pick. -/
def IsQuote (q : Char) : Prop := q = '\'' ∨ q = '"'

theorem unescBody_escBody {q : Char} (hq : IsQuote q) :
    ∀ {s : List Char}, (∀ c ∈ s, c.toNat < 128) →
      unescBody q (escBody q s) = some s := by
  intro s
  induction s with
  | nil => intro _; rfl
  | cons c cs ih =>
    intro hascii
    have hc : c.toNat < 128 := hascii c (by simp)
    have hcs : ∀ x ∈ cs, x.toNat < 128 := fun x hx => hascii x (by simp [hx])
    have ihcs := ih hcs
    rw [escBody, escChar]
    split
    · rename_i hcase
      -- token ['\', c] with c the quote or a backslash
      have hcx : ¬ c = 'x' := by
        rcases hcase with h | h <;> rcases hq with hq | hq <;> simp [h, hq]
      have hct : ¬ c = 't' := by
        rcases hcase with h | h <;> rcases hq with hq | hq <;> simp [h, hq]
      have hcn : ¬ c = 'n' := by
        rcases hcase with h | h <;> rcases hq with hq | hq <;> simp [h, hq]
      have hcr : ¬ c = 'r' := by
        rcases hcase with h | h <;> rcases hq with hq | hq <;> simp [h, hq]
      rw [List.cons_append, List.cons_append, List.nil_append, unescBody.eq_def]
      simp only [if_true, if_false]
      rw [if_neg hcx, if_neg hct, if_neg hcn, if_neg hcr, ihcs]
      rfl
    · split
      · rename_i hct
        subst hct
        rw [List.cons_append, List.cons_append, List.nil_append, unescBody.eq_def]
        simp only [if_true, if_false]
        rw [ihcs]
        rfl
      · split
        · rename_i hcn
          subst hcn
          rw [List.cons_append, List.cons_append, List.nil_append, unescBody.eq_def]
          simp only [if_true, if_false]
          rw [ihcs]
          rfl
        · split
          · rename_i hcr
            subst hcr
            rw [List.cons_append, List.cons_append, List.nil_append, unescBody.eq_def]
            simp only [if_true, if_false]
            rw [ihcs]
            rfl
          · split
            · rename_i hnoesc _ _ _ hprint
              -- literal character: not a backslash, decoded as itself
              have hcb : ¬ c = '\\' := fun h => hnoesc (Or.inr h)
              rw [List.cons_append, List.nil_append, unescBody.eq_def]
              simp only []
              rw [if_neg hcb, ihcs]
              rfl
            · -- \xNN escape of a non-printable ASCII character
              have hdiv : c.toNat / 16 < 16 := by omega
              have hmod : c.toNat % 16 < 16 := by omega
              rw [List.cons_append, List.cons_append, List.cons_append,
                List.cons_append, List.nil_append, unescBody.eq_def]
              simp only [if_true, if_false]
              rw [ihcs]
              rw [hexVal_hexDigitChar hdiv, hexVal_hexDigitChar hmod]
              have h16 : 16 * (c.toNat / 16) + c.toNat % 16 = c.toNat := by omega
              rw [h16, Char.ofNat_toNat]
              rfl

theorem escBody_injective {q : Char} (hq : IsQuote q) {s₁ s₂ : List Char}
    (h₁ : ∀ c ∈ s₁, c.toNat < 128) (h₂ : ∀ c ∈ s₂, c.toNat < 128)
    (heq : escBody q s₁ = escBody q s₂) : s₁ = s₂ := by
  have e₁ := unescBody_escBody hq h₁
  have e₂ := unescBody_escBody hq h₂
  rw [heq, e₂] at e₁
  exact (Option.some.inj e₁).symm

/-- Model of CPython `repr` for an ASCII string: quote, escaped body, quote. -/
def pyReprChars (s : List Char) : List Char :=
  let q := quoteChoice s
  q :: escBody q s ++ [q]

theorem pyReprChars_injective {s₁ s₂ : List Char}
    (h₁ : ∀ c ∈ s₁, c.toNat < 128) (h₂ : ∀ c ∈ s₂, c.toNat < 128)
    (heq : pyReprChars s₁ = pyReprChars s₂) : s₁ = s₂ := by
  unfold pyReprChars at heq
  simp only [List.cons_append] at heq
  have hq : quoteChoice s₁ = quoteChoice s₂ := (List.cons.inj heq).1
  have hbody : escBody (quoteChoice s₁) s₁ ++ [quoteChoice s₁]
      = escBody (quoteChoice s₁) s₂ ++ [quoteChoice s₁] := by
    have := (List.cons.inj heq).2
    rw [hq] at this ⊢
    exact this
  have hb : escBody (quoteChoice s₁) s₁ = escBody (quoteChoice s₁) s₂ :=
    List.append_cancel_right hbody
  exact escBody_injective (by rw [hq]; exact (quoteChoice_cases s₂).imp id id) h₁ h₂ hb

/-- Python `repr` of a 2-tuple of strings: `('name', 'version')`. -/
def reprPair (p : Dep) : List Char :=
  '(' :: pyReprChars p.1 ++ ',' :: ' ' :: pyReprChars p.2 ++ [')']

/-- `", ".join` of the tuple representations, as inside Python's list repr. -/
def joinReprPairs : List Dep → List Char
  | [] => []
  | [p] => reprPair p
  | p :: q :: rest => reprPair p ++ ',' :: ' ' :: joinReprPairs (q :: rest)

/-- Python `repr` of a list of 2-tuples of strings: `[('a', '1'), ('b', '2')]`. -/
def reprPairList (l : List Dep) : List Char := '[' :: joinReprPairs l ++ [']']

/-! ## SHA-1 (`hashlib.sha1`)

Pure model of the SHA-1 digest used by `get_cache_key`, over byte lists, with
32-bit arithmetic as `Nat` modulo `2 ^ 32`. -/

/-- Left rotation of a 32-bit word. -/
def rotl (k n : Nat) : Nat := ((n <<< k) % 2 ^ 32) ||| (n >>> (32 - k))

/-- Big-endian byte encoding of `n` in `k` bytes. -/
def beBytes : Nat → Nat → List Nat
  | 0, _ => []
  | k + 1, n => beBytes k (n / 256) ++ [n % 256]

/-- SHA-1 message padding: `0x80`, zeros to 56 mod 64, 8-byte big-endian
bit length. -/
def sha1Pad (msg : List Nat) : List Nat :=
  let padLen := (64 + 55 - msg.length % 64) % 64
  msg ++ 0x80 :: List.replicate padLen 0 ++ beBytes 8 (8 * msg.length)

/-- Split a list into chunks of 64 bytes (`fuel` keeps the recursion
structural; each step consumes at least one element, so `l.length` fuel is
always enough). -/
def chunks64Aux : Nat → List Nat → List (List Nat)
  | 0, _ => []
  | _ + 1, [] => []
  | fuel + 1, b :: rest => ((b :: rest).take 64) :: chunks64Aux fuel ((b :: rest).drop 64)

/-- Split a list into chunks of 64 bytes. -/
def chunks64 (l : List Nat) : List (List Nat) := chunks64Aux l.length l

/-- Big-endian 32-bit word from four bytes. -/
def wordAt (chunk : List Nat) (i : Nat) : Nat :=
  ((chunk.drop (4 * i)).take 4).foldl (fun acc b => acc * 256 + b) 0

/-- Message-schedule extension: `acc` holds the words produced so far, most
recent first; each new word is `rotl 1 (w[i-3] xor w[i-8] xor w[i-14] xor
w[i-16])`. -/
def sha1Extend (acc : List Nat) : Nat → List Nat
  | 0 => acc.reverse
  | n + 1 =>
    sha1Extend
      (rotl 1 (acc.getD 2 0 ^^^ acc.getD 7 0 ^^^ acc.getD 13 0 ^^^ acc.getD 15 0) :: acc) n

/-- The 80-word message schedule of a 64-byte chunk. -/
def sha1Schedule (chunk : List Nat) : List Nat :=
  sha1Extend (((List.range 16).map (wordAt chunk)).reverse) 64

/-- Round function `f` of SHA-1 (bitwise not is xor with `0xFFFFFFFF`). -/
def sha1F (i b c d : Nat) : Nat :=
  if i < 20 then (b &&& c) ||| ((b ^^^ 0xFFFFFFFF) &&& d)
  else if i < 40 then b ^^^ c ^^^ d
  else if i < 60 then (b &&& c) ||| (b &&& d) ||| (c &&& d)
  else b ^^^ c ^^^ d

/-- Round constants of SHA-1. -/
def sha1K (i : Nat) : Nat :=
  if i < 20 then 0x5A827999
  else if i < 40 then 0x6ED9EBA1
  else if i < 60 then 0x8F1BBCDC
  else 0xCA62C1D6

/-- The five-word SHA-1 state. -/
abbrev Sha1State := Nat × Nat × Nat × Nat × Nat

/-- Initial SHA-1 state. -/
def sha1Init : Sha1State := (0x67452301, 0xEFCDAB89, 0x98BADCFE, 0x10325476, 0xC3D2E1F0)

/-- Compression of one 64-byte chunk into the running state. -/
def sha1Compress (h : Sha1State) (chunk : List Nat) : Sha1State :=
  let ws := sha1Schedule chunk
  let final := ((List.range 80).zip ws).foldl
    (fun (st : Sha1State) (iw : Nat × Nat) =>
      let (a, b, c, d, e) := st
      let temp := (rotl 5 a + sha1F iw.1 b c d + e + sha1K iw.1 + iw.2) % 2 ^ 32
      (temp, a, rotl 30 b, c, d))
    h
  ((h.1 + final.1) % 2 ^ 32,
   (h.2.1 + final.2.1) % 2 ^ 32,
   (h.2.2.1 + final.2.2.1) % 2 ^ 32,
   (h.2.2.2.1 + final.2.2.2.1) % 2 ^ 32,
   (h.2.2.2.2 + final.2.2.2.2) % 2 ^ 32)

/-- Big-endian concatenation of the five state words into one number. -/
def sha1Out (h : Sha1State) : Nat :=
  (((h.1 * 2 ^ 32 + h.2.1) * 2 ^ 32 + h.2.2.1) * 2 ^ 32 + h.2.2.2.1) * 2 ^ 32 + h.2.2.2.2

/-- The 160-bit SHA-1 digest of a byte list, as a natural number. -/
def sha1Digest (msg : List Nat) : Nat :=
  sha1Out ((chunks64 (sha1Pad msg)).foldl sha1Compress sha1Init)

/-- Fixed-width lowercase hexadecimal rendering, most significant digit
first. -/
def toHexN : Nat → Nat → List Char
  | 0, _ => []
  | k + 1, n => toHexN k (n / 16) ++ [hexDigitChar (n % 16)]

/-- `hashlib.sha1(...).hexdigest()`: 40 lowercase hex characters. -/
def sha1Hex (msg : List Nat) : List Char := toHexN 40 (sha1Digest msg)

theorem toHexN_length (k n : Nat) : (toHexN k n).length = k := by
  induction k generalizing n with
  | zero => rfl
  | succ k ih => simp [toHexN, ih]

theorem toHexN_mem (k n : Nat) :
    ∀ c ∈ toHexN k n, c ∈ "0123456789abcdef".data := by
  induction k generalizing n with
  | zero => intro c hc; simp [toHexN] at hc
  | succ k ih =>
    intro c hc
    simp only [toHexN, List.mem_append, List.mem_singleton] at hc
    rcases hc with hc | hc
    · exact ih _ c hc
    · subst hc
      have : n % 16 < 16 := by omega
      unfold hexDigitChar
      interval_cases h : n % 16 <;> simp [h]

/-! ## `get_cache_key`

```python
state = hashlib.sha1()
state.update(repr(sorted(dependencies.items())).encode("ascii"))
state.update(self.nodejs_version.encode("ascii"))
state.update(self.installer_version.encode("ascii"))
return state.hexdigest()
```
-/

/-- `str.encode("ascii")` succeeds iff every character is ASCII. -/
def allAscii (l : List Char) : Bool := l.all (fun c => c.toNat < 128)

/-- Whether every name and version of a dependency mapping is ASCII. -/
def depsAscii (deps : List Dep) : Bool :=
  deps.all (fun p => allAscii p.1 && allAscii p.2)

/-- The byte string accumulated into the SHA-1 state by `get_cache_key`:
`repr(sorted(dependencies.items()))` followed by the Node.js version and the
installer version. `none` models a `UnicodeEncodeError` from
`.encode("ascii")`. -/
def cacheKeyMessage (deps : List Dep) (node inst : List Char) : Option (List Char) :=
  if depsAscii deps && allAscii node && allAscii inst then
    some (reprPairList (pySortedDeps deps) ++ node ++ inst)
  else none

/-- `NpmAccel.get_cache_key`: the 40-character hexadecimal SHA-1 fingerprint
of the dependency mapping and the two toolchain version strings. -/
def get_cache_key (deps : List Dep) (node inst : List Char) : Option (List Char) :=
  (cacheKeyMessage deps node inst).map (fun m => sha1Hex (m.map Char.toNat))

/-! ## Helper lemmas about the serialization -/

theorem allAscii_mem {l : List Char} (h : allAscii l = true) :
    ∀ c ∈ l, c.toNat < 128 := by
  intro c hc
  have := List.all_eq_true.mp h c hc
  simpa using this

theorem depsAscii_mem {deps : List Dep} (h : depsAscii deps = true) :
    ∀ p ∈ deps, allAscii p.1 = true ∧ allAscii p.2 = true := by
  intro p hp
  have := List.all_eq_true.mp h p hp
  simpa using this

theorem depsAscii_perm {d₁ d₂ : List Dep} (h : d₁.Perm d₂) :
    depsAscii d₁ = depsAscii d₂ := by
  unfold depsAscii
  cases ha : d₂.all fun p => allAscii p.1 && allAscii p.2
  · cases hb : d₁.all fun p => allAscii p.1 && allAscii p.2
    · rfl
    · rw [List.all_eq_true] at hb
      rw [← Bool.not_eq_true, List.all_eq_true] at ha
      exact absurd (fun p hp => hb p (h.mem_iff.mpr hp)) ha
  · rw [List.all_eq_true] at ha ⊢
    exact fun p hp => ha p (h.mem_iff.mp hp)

theorem pySortedDeps_perm_eq {d₁ d₂ : List Dep} (h : d₁.Perm d₂) :
    pySortedDeps d₁ = pySortedDeps d₂ :=
  List.eq_of_perm_of_sorted
    ((List.perm_insertionSort depLE d₁).trans (h.trans (List.perm_insertionSort depLE d₂).symm))
    (List.sorted_insertionSort depLE d₁)
    (List.sorted_insertionSort depLE d₂)

theorem joinReprPairs_cons (p : Dep) (l : List Dep) (h : l ≠ []) :
    joinReprPairs (p :: l) = reprPair p ++ ',' :: ' ' :: joinReprPairs l := by
  match l with
  | [] => exact absurd rfl h
  | q :: rest => rfl

/-- The repr of a list splits around any distinguished element into a prefix
and suffix that do not depend on that element. -/
theorem reprPairList_decomp (A B : List Dep) :
    ∃ P S, ∀ x : Dep, reprPairList (A ++ x :: B) = P ++ reprPair x ++ S := by
  suffices h : ∃ P S, ∀ x : Dep, joinReprPairs (A ++ x :: B) = P ++ reprPair x ++ S by
    obtain ⟨P, S, hPS⟩ := h
    refine ⟨'[' :: P, S ++ [']'], fun x => ?_⟩
    unfold reprPairList
    rw [hPS x]
    simp
  induction A with
  | nil =>
    cases B with
    | nil => exact ⟨[], [], fun x => by simp [joinReprPairs]⟩
    | cons q rest =>
      refine ⟨[], ',' :: ' ' :: joinReprPairs (q :: rest), fun x => ?_⟩
      rw [List.nil_append, joinReprPairs_cons x (q :: rest) (by simp)]
      simp
  | cons a A' ih =>
    obtain ⟨P', S', hPS⟩ := ih
    refine ⟨reprPair a ++ ',' :: ' ' :: P', S', fun x => ?_⟩
    rw [List.cons_append, joinReprPairs_cons a (A' ++ x :: B) (by simp), hPS x]
    simp

theorem pyPairLe_fst_ne_left {x : Dep} {k w w' : List Char} (h : x.1 ≠ k) :
    pyPairLe x (k, w) = pyPairLe x (k, w') := by
  have : (x.1 == k) = false := beq_eq_false_iff_ne.mpr h
  simp [pyPairLe, this]

theorem pyPairLe_fst_ne_right {x : Dep} {k w w' : List Char} (h : k ≠ x.1) :
    pyPairLe (k, w) x = pyPairLe (k, w') x := by
  have : (k == x.1) = false := beq_eq_false_iff_ne.mpr h
  simp [pyPairLe, this]

/-- Replacing the version of one dependency (with all names distinct) moves
only that element of the sorted item list; its sorted neighborhood is
unchanged. -/
theorem pySortedDeps_replace (pre post : List Dep) (k v v' : List Char)
    (hnd : ((pre ++ (k, v) :: post).map Prod.fst).Nodup) :
    ∃ A B, pySortedDeps (pre ++ (k, v) :: post) = A ++ (k, v) :: B ∧
      pySortedDeps (pre ++ (k, v') :: post) = A ++ (k, v') :: B := by
  have hperm : (pySortedDeps (pre ++ (k, v) :: post)).Perm (pre ++ (k, v) :: post) :=
    List.perm_insertionSort depLE _
  have hsorted : List.Sorted depLE (pySortedDeps (pre ++ (k, v) :: post)) :=
    List.sorted_insertionSort depLE _
  have hmem : (k, v) ∈ pySortedDeps (pre ++ (k, v) :: post) :=
    hperm.mem_iff.mpr (by simp)
  obtain ⟨A, B, hAB⟩ := List.append_of_mem hmem
  -- names in the sorted list are still distinct
  have hndS : ((A ++ (k, v) :: B).map Prod.fst).Nodup := by
    rw [← hAB]
    exact ((hperm.map Prod.fst).nodup_iff).mpr hnd
  rw [List.map_append, List.map_cons] at hndS
  rw [List.nodup_middle, List.nodup_cons, List.mem_append] at hndS
  have hkA : ∀ x ∈ A, x.1 ≠ k := by
    intro x hx he
    exact hndS.1 (Or.inl (List.mem_map.mpr ⟨x, hx, he⟩))
  have hkB : ∀ x ∈ B, x.1 ≠ k := by
    intro x hx he
    exact hndS.1 (Or.inr (List.mem_map.mpr ⟨x, hx, he⟩))
  -- the modified list is a permutation of the modified input
  have hmid : (A ++ B).Perm (pre ++ post) := by
    have h1 : ((k, v) :: (A ++ B)).Perm ((k, v) :: (pre ++ post)) :=
      (List.perm_middle.symm.trans (hAB ▸ hperm)).trans List.perm_middle
    exact h1.cons_inv
  have hperm2 : (A ++ (k, v') :: B).Perm (pre ++ (k, v') :: post) :=
    List.perm_middle.trans ((hmid.cons (k, v')).trans List.perm_middle.symm)
  -- sortedness is preserved because comparisons with other items only read
  -- the (distinct) names
  have hsorted' : List.Sorted depLE (A ++ (k, v') :: B) := by
    rw [hAB] at hsorted
    unfold List.Sorted at hsorted ⊢
    rw [List.pairwise_append, List.pairwise_cons] at hsorted ⊢
    obtain ⟨hA, ⟨hkvB, hB⟩, hcross⟩ := hsorted
    refine ⟨hA, ⟨?_, hB⟩, ?_⟩
    · intro y hy
      have : depLE (k, v) y := hkvB y hy
      unfold depLE at this ⊢
      rwa [← pyPairLe_fst_ne_right (Ne.symm (hkB y hy))]
    · intro a ha b hb
      rcases List.mem_cons.mp hb with hb | hb
      · subst hb
        have : depLE a (k, v) := hcross a ha (k, v) (by simp)
        unfold depLE at this ⊢
        rwa [← pyPairLe_fst_ne_left (hkA a ha)]
      · exact hcross a ha b (List.mem_cons_of_mem _ hb)
  refine ⟨A, B, hAB, ?_⟩
  exact List.eq_of_perm_of_sorted
    ((List.perm_insertionSort depLE _).trans hperm2.symm)
    (List.sorted_insertionSort depLE _) hsorted'

/-- `repr` of a tuple determines the version component. -/
theorem reprPair_inj_version {k v v' : List Char}
    (hv : ∀ c ∈ v, c.toNat < 128) (hv' : ∀ c ∈ v', c.toNat < 128)
    (h : reprPair (k, v) = reprPair (k, v')) : v = v' := by
  unfold reprPair at h
  simp only [List.cons_append, List.append_assoc] at h
  have h1 := (List.cons.inj h).2
  have h2 : ',' :: ' ' :: pyReprChars v ++ [')'] = ',' :: ' ' :: pyReprChars v' ++ [')'] :=
    List.append_cancel_left h1
  have h3 := (List.cons.inj h2).2
  have h4 := (List.cons.inj h3).2
  exact pyReprChars_injective hv hv' (List.append_cancel_right h4)

theorem sha1Compress_comp (h : Sha1State) (chunk : List Nat) :
    ∃ a b c d e, sha1Compress h chunk =
      (a % 2 ^ 32, b % 2 ^ 32, c % 2 ^ 32, d % 2 ^ 32, e % 2 ^ 32) :=
  ⟨_, _, _, _, _, rfl⟩

theorem sha1Digest_lt (msg : List Nat) : sha1Digest msg < 2 ^ 160 := by
  unfold sha1Digest
  have key : ∀ (l : List (List Nat)) (h : Sha1State),
      h.1 < 2 ^ 32 → h.2.1 < 2 ^ 32 → h.2.2.1 < 2 ^ 32 → h.2.2.2.1 < 2 ^ 32 →
      h.2.2.2.2 < 2 ^ 32 →
      (l.foldl sha1Compress h).1 < 2 ^ 32 ∧ (l.foldl sha1Compress h).2.1 < 2 ^ 32 ∧
      (l.foldl sha1Compress h).2.2.1 < 2 ^ 32 ∧
      (l.foldl sha1Compress h).2.2.2.1 < 2 ^ 32 ∧
      (l.foldl sha1Compress h).2.2.2.2 < 2 ^ 32 := by
    intro l
    induction l with
    | nil => intro h h1 h2 h3 h4 h5; exact ⟨h1, h2, h3, h4, h5⟩
    | cons c cs ih =>
      intro h h1 h2 h3 h4 h5
      rw [List.foldl_cons]
      obtain ⟨a, b, c', d, e, hc⟩ := sha1Compress_comp h c
      rw [hc]
      exact ih _ (Nat.mod_lt _ (by norm_num)) (Nat.mod_lt _ (by norm_num))
        (Nat.mod_lt _ (by norm_num)) (Nat.mod_lt _ (by norm_num))
        (Nat.mod_lt _ (by norm_num))
  obtain ⟨h1, h2, h3, h4, h5⟩ := key (chunks64 (sha1Pad msg)) sha1Init
    (by norm_num [sha1Init]) (by norm_num [sha1Init]) (by norm_num [sha1Init])
    (by norm_num [sha1Init]) (by norm_num [sha1Init])
  have e32 : (2 : Nat) ^ 32 = 4294967296 := by norm_num
  have e160 : (2 : Nat) ^ 160 =
      1461501637330902918203684832716283019655932542976 := by norm_num
  rw [e32] at h1 h2 h3 h4 h5
  unfold sha1Out
  rw [e32, e160]
  omega

/-- **C1**: `get_cache_key` is a pure function of the *set* of `(name,
version)` pairs: permuting the dependency items (the insertion/iteration
order of the mapping) leaves the fingerprint unchanged, and any computed
fingerprint is a 40-character lowercase hexadecimal string. -/
theorem get_cache_key_order_independent (deps₁ deps₂ : List Dep)
    (node inst : List Char) (hperm : deps₁.Perm deps₂) :
    get_cache_key deps₁ node inst = get_cache_key deps₂ node inst ∧
    (∀ key, get_cache_key deps₁ node inst = some key →
      key.length = 40 ∧ ∀ c ∈ key, c ∈ "0123456789abcdef".data) := by
  constructor
  · unfold get_cache_key cacheKeyMessage
    rw [pySortedDeps_perm_eq hperm, depsAscii_perm hperm]
  · intro key hkey
    unfold get_cache_key cacheKeyMessage at hkey
    by_cases hc : (depsAscii deps₁ && allAscii node && allAscii inst) = true
    · rw [if_pos hc] at hkey
      simp only [Option.map_some', Option.some.injEq] at hkey
      subst hkey
      exact ⟨toHexN_length 40 _, toHexN_mem 40 _⟩
    · rw [if_neg hc] at hkey
      simp at hkey

theorem get_cache_key_order_independent_witness :
    get_cache_key [(['a'], ['1']), (['b'], ['2'])] ['n'] ['i'] =
      get_cache_key [(['b'], ['2']), (['a'], ['1'])] ['n'] ['i'] ∧
    (∀ key, get_cache_key [(['a'], ['1']), (['b'], ['2'])] ['n'] ['i'] = some key →
      key.length = 40 ∧ ∀ c ∈ key, c ∈ "0123456789abcdef".data) :=
  get_cache_key_order_independent _ _ _ _ (by decide)

/-- **C2** (counterexample to the claim as stated): because the fingerprint
is a 160-bit SHA-1 digest of the serialized inputs, there exist two distinct
version strings for a dependency whose fingerprints coincide (pigeonhole:
infinitely many version strings, finitely many digests), so changing one
dependency's version does not always change the fingerprint. -/
theorem get_cache_key_collision : ∃ v₁ v₂ : List Char, v₁ ≠ v₂ ∧
    get_cache_key [(['a'], v₁)] ['n'] ['i'] =
      get_cache_key [(['a'], v₂)] ['n'] ['i'] := by
  have hlt : ∀ n : Nat,
      sha1Digest ((reprPairList (pySortedDeps [(['a'], List.replicate n '1')]) ++
        ['n'] ++ ['i']).map Char.toNat) < 2 ^ 160 := fun _ => sha1Digest_lt _
  obtain ⟨n, m, hnm, heq⟩ := Finite.exists_ne_map_eq_of_infinite
    (fun n : Nat =>
      (⟨sha1Digest ((reprPairList (pySortedDeps [(['a'], List.replicate n '1')]) ++
        ['n'] ++ ['i']).map Char.toNat), hlt n⟩ : Fin (2 ^ 160)))
  have hasc : ∀ k : Nat,
      (depsAscii [(['a'], List.replicate k '1')] && allAscii ['n'] &&
        allAscii ['i']) = true := by
    intro k
    simp only [depsAscii, allAscii, Bool.and_eq_true, List.all_eq_true]
    refine ⟨⟨?_, ?_⟩, ?_⟩
    · intro p hp
      rw [List.mem_singleton] at hp
      subst hp
      simp only [Bool.and_eq_true, List.all_eq_true]
      constructor
      · intro c hc
        rw [List.mem_singleton] at hc
        subst hc
        decide
      · intro c hc
        rw [List.eq_of_mem_replicate hc]
        decide
    · intro c hc
      rw [List.mem_singleton] at hc
      subst hc
      decide
    · intro c hc
      rw [List.mem_singleton] at hc
      subst hc
      decide
  refine ⟨List.replicate n '1', List.replicate m '1', ?_, ?_⟩
  · intro hcon
    apply hnm
    have := congrArg List.length hcon
    simpa using this
  · unfold get_cache_key cacheKeyMessage
    rw [if_pos (hasc n), if_pos (hasc m)]
    simp only [Option.map_some', Option.some.injEq]
    unfold sha1Hex
    have hdig :
        sha1Digest ((reprPairList (pySortedDeps [(['a'], List.replicate n '1')]) ++
          ['n'] ++ ['i']).map Char.toNat) =
        sha1Digest ((reprPairList (pySortedDeps [(['a'], List.replicate m '1')]) ++
          ['n'] ++ ['i']).map Char.toNat) := congrArg Fin.val heq
    rw [hdig]

/-- **C2** (amended): changing any one dependency's version string (among
distinct names), or the Node.js version string, or the installer version
string, changes the byte sequence that `get_cache_key` feeds into SHA-1; the
fingerprint itself therefore differs except in the (negligible but, by the
counterexample, mathematically unavoidable) event of a SHA-1 collision. -/
theorem cacheKeyMessage_sensitivity :
    (∀ (pre post : List Dep) (k v v' node inst : List Char),
      ((pre ++ (k, v) :: post).map Prod.fst).Nodup → v ≠ v' →
      depsAscii (pre ++ (k, v) :: post) = true →
      depsAscii (pre ++ (k, v') :: post) = true →
      allAscii node = true → allAscii inst = true →
      cacheKeyMessage (pre ++ (k, v) :: post) node inst ≠
        cacheKeyMessage (pre ++ (k, v') :: post) node inst) ∧
    (∀ (deps : List Dep) (node node' inst : List Char),
      node ≠ node' → depsAscii deps = true →
      allAscii node = true → allAscii node' = true → allAscii inst = true →
      cacheKeyMessage deps node inst ≠ cacheKeyMessage deps node' inst) ∧
    (∀ (deps : List Dep) (node inst inst' : List Char),
      inst ≠ inst' → depsAscii deps = true →
      allAscii node = true → allAscii inst = true → allAscii inst' = true →
      cacheKeyMessage deps node inst ≠ cacheKeyMessage deps node inst') := by
  refine ⟨?_, ?_, ?_⟩
  · intro pre post k v v' node inst hnd hne ha ha' hnode hinst hM
    unfold cacheKeyMessage at hM
    rw [if_pos (by rw [ha, hnode, hinst]; rfl),
      if_pos (by rw [ha', hnode, hinst]; rfl)] at hM
    have hM1 := Option.some.inj hM
    have hM2 := List.append_cancel_right (List.append_cancel_right hM1)
    obtain ⟨A, B, h1, h2⟩ := pySortedDeps_replace pre post k v v' hnd
    rw [h1, h2] at hM2
    obtain ⟨P, S, hPS⟩ := reprPairList_decomp A B
    rw [hPS, hPS] at hM2
    have hM3 := List.append_cancel_left (List.append_cancel_right hM2)
    have hvA : allAscii v = true :=
      (depsAscii_mem ha (k, v) (by simp)).2
    have hvA' : allAscii v' = true :=
      (depsAscii_mem ha' (k, v') (by simp)).2
    exact hne (reprPair_inj_version (allAscii_mem hvA) (allAscii_mem hvA') hM3)
  · intro deps node node' inst hne ha hnode hnode' hinst hM
    unfold cacheKeyMessage at hM
    rw [if_pos (by rw [ha, hnode, hinst]; rfl),
      if_pos (by rw [ha, hnode', hinst]; rfl)] at hM
    have hM1 := Option.some.inj hM
    exact hne (List.append_cancel_left (List.append_cancel_right hM1))
  · intro deps node inst inst' hne ha hnode hinst hinst' hM
    unfold cacheKeyMessage at hM
    rw [if_pos (by rw [ha, hnode, hinst]; rfl),
      if_pos (by rw [ha, hnode, hinst']; rfl)] at hM
    have hM1 := Option.some.inj hM
    exact hne (List.append_cancel_left hM1)

theorem cacheKeyMessage_sensitivity_witness :
    (cacheKeyMessage [(['a'], ['1'])] ['n'] ['i'] ≠
      cacheKeyMessage [(['a'], ['2'])] ['n'] ['i']) ∧
    (cacheKeyMessage [(['a'], ['1'])] ['n'] ['i'] ≠
      cacheKeyMessage [(['a'], ['1'])] ['m'] ['i']) ∧
    (cacheKeyMessage [(['a'], ['1'])] ['n'] ['i'] ≠
      cacheKeyMessage [(['a'], ['1'])] ['n'] ['j']) :=
  ⟨cacheKeyMessage_sensitivity.1 [] [] ['a'] ['1'] ['2'] ['n'] ['i']
      (by decide) (by decide) (by decide) (by decide) (by decide) (by decide),
   cacheKeyMessage_sensitivity.2.1 [(['a'], ['1'])] ['n'] ['m'] ['i']
      (by decide) (by decide) (by decide) (by decide) (by decide),
   cacheKeyMessage_sensitivity.2.2 [(['a'], ['1'])] ['n'] ['i'] ['j']
      (by decide) (by decide) (by decide) (by decide) (by decide)⟩

/-! ## JSON values (`json` module)

The metadata sidecar files hold JSON objects. JSON numbers are modeled as
integers only (the metadata records written by the source contain only
integers; floating-point literals are outside the model and are treated as
unparseable). -/

/-- A JSON value. Strings and keys are Python strings (`List Char`). -/
inductive JVal where
  | null
  | bool (b : Bool)
  | num (n : Int)
  | str (s : List Char)
  | arr (elems : List JVal)
  | obj (fields : List (List Char × JVal))

/-- Errors that modeled Python code can raise. -/
inductive Err where
  | externalCommandFailed (cmd : String)
  | jsonError
  | attributeError
  | typeError
  | unicodeError
  | missingPackageFileError
  | fileMissing
deriving DecidableEq

/-- A Python dict with string keys, in insertion order. -/
abbrev PyDict := List (List Char × JVal)

/-- `d.get(k, dflt)`. -/
def pyGet (d : PyDict) (k : List Char) (dflt : JVal) : JVal :=
  match d.lookup k with
  | some v => v
  | none => dflt

/-- `k in d`. -/
def pyContains (d : PyDict) (k : List Char) : Bool := (d.lookup k).isSome

/-- `d[k] = v`: update in place (keeping the key's position) or append. -/
def pySet (d : PyDict) (k : List Char) (v : JVal) : PyDict :=
  match d with
  | [] => [(k, v)]
  | (k', v') :: rest => if k' = k then (k', v) :: rest else (k', v') :: pySet rest k v

/-- `d.update(ov)`. -/
def pyUpdate (d ov : PyDict) : PyDict :=
  ov.foldl (fun acc e => pySet acc e.1 e.2) d

/-- Decimal digits of a natural number (`fuel` bounds the digit count and
keeps the recursion structural, so that it evaluates by kernel reduction). -/
def natDecimalAux : Nat → Nat → List Char
  | 0, _ => []
  | fuel + 1, n =>
    if n < 10 then [Char.ofNat (48 + n)]
    else natDecimalAux fuel (n / 10) ++ [Char.ofNat (48 + n % 10)]

/-- Decimal digits of a natural number. -/
def natDecimal (n : Nat) : List Char := natDecimalAux (n + 1) n

/-- Python `repr`/`json.dumps` rendering of an integer. -/
def intDecimal : Int → List Char
  | .ofNat n => natDecimal n
  | .negSucc n => '-' :: natDecimal (n + 1)

/-- JSON string escaping as produced by `json.dumps` (`ensure_ascii=True`). -/
def jsonEscChar (c : Char) : List Char :=
  if c = '"' then ['\\', '"']
  else if c = '\\' then ['\\', '\\']
  else if c = '\n' then ['\\', 'n']
  else if c = '\t' then ['\\', 't']
  else if c = '\r' then ['\\', 'r']
  else if c.toNat = 8 then ['\\', 'b']
  else if c.toNat = 12 then ['\\', 'f']
  else if c.toNat < 32 then '\\' :: 'u' :: toHexN 4 c.toNat
  else if c.toNat < 127 then [c]
  else if c.toNat < 65536 then '\\' :: 'u' :: toHexN 4 c.toNat
  else
    ('\\' :: 'u' :: toHexN 4 (0xD800 + (c.toNat - 65536) / 1024)) ++
    ('\\' :: 'u' :: toHexN 4 (0xDC00 + (c.toNat - 65536) % 1024))

/-- A JSON string literal: quote, escaped characters, quote. -/
def jsonQuote (s : List Char) : List Char :=
  '"' :: (escAll s) ++ ['"']
where
  escAll : List Char → List Char
    | [] => []
    | c :: cs => jsonEscChar c ++ escAll cs

mutual

/-- `json.dumps` with the default separators `", "` and `": "`. -/
def jsonDumps : JVal → List Char
  | .null => "null".data
  | .bool true => "true".data
  | .bool false => "false".data
  | .num n => intDecimal n
  | .str s => jsonQuote s
  | .arr xs => '[' :: jsonDumpsArr xs ++ [']']
  | .obj fs => Char.ofNat 123 :: jsonDumpsObj fs ++ [Char.ofNat 125]

/-- Array elements joined by `", "`. -/
def jsonDumpsArr : List JVal → List Char
  | [] => []
  | [x] => jsonDumps x
  | x :: y :: rest => jsonDumps x ++ ',' :: ' ' :: jsonDumpsArr (y :: rest)

/-- Object fields `"key": value` joined by `", "`. -/
def jsonDumpsObj : List (List Char × JVal) → List Char
  | [] => []
  | [f] => jsonQuote f.1 ++ ':' :: ' ' :: jsonDumps f.2
  | f :: g :: rest =>
    (jsonQuote f.1 ++ ':' :: ' ' :: jsonDumps f.2) ++ ',' :: ' ' :: jsonDumpsObj (g :: rest)

end

end NpmAccel

namespace NpmAccel

/-! ## JSON parsing (`json.loads`)

Recursive-descent parser modeling `json.loads` on the fragment used by the
cache: all JSON constructs except floating-point numbers (a number followed
by `.`, `e` or `E` is treated as unparseable) and `\uXXXX` escapes in the
surrogate range (CPython combines surrogate pairs; Lean `Char` cannot hold
lone surrogates, so such escapes are treated as unparseable). Object
duplicate keys keep the last value at the first position, as `dict` does. -/

/-- JSON insignificant whitespace. -/
def jsonWs (l : List Char) : List Char :=
  l.dropWhile (fun c => c = ' ' ∨ c = '\t' ∨ c = '\n' ∨ c = '\r')

/-- Value of a hexadecimal digit in either case, if any. -/
def hexValAny (c : Char) : Option Nat :=
  if 48 ≤ c.toNat ∧ c.toNat ≤ 57 then some (c.toNat - 48)
  else if 97 ≤ c.toNat ∧ c.toNat ≤ 102 then some (c.toNat - 87)
  else if 65 ≤ c.toNat ∧ c.toNat ≤ 70 then some (c.toNat - 55)
  else none

/-- Single-character JSON escapes. -/
def jsonUnescChar (e : Char) : Option Char :=
  if e = '"' then some '"'
  else if e = '\\' then some '\\'
  else if e = '/' then some '/'
  else if e = 'b' then some (Char.ofNat 8)
  else if e = 'f' then some (Char.ofNat 12)
  else if e = 'n' then some '\n'
  else if e = 'r' then some '\r'
  else if e = 't' then some '\t'
  else none

/-- Parse the remainder of a JSON string literal (after the opening quote).
Returns the decoded characters and the input after the closing quote. Raw
control characters are rejected (`json.loads` is strict by default). -/
def parseJStr : List Char → Option (List Char × List Char)
  | [] => none
  | c :: rest =>
    if c = '"' then some ([], rest)
    else if c = '\\' then
      match rest with
      | [] => none
      | e :: rest1 =>
        if e = 'u' then
          match rest1 with
          | d1 :: d2 :: d3 :: d4 :: rest2 =>
            match hexValAny d1, hexValAny d2, hexValAny d3, hexValAny d4 with
            | some h1, some h2, some h3, some h4 =>
              let v := ((h1 * 16 + h2) * 16 + h3) * 16 + h4
              if 55296 ≤ v ∧ v < 57344 then none
              else (parseJStr rest2).map (fun r => (Char.ofNat v :: r.1, r.2))
            | _, _, _, _ => none
          | _ => none
        else
          match jsonUnescChar e with
          | some ch => (parseJStr rest1).map (fun r => (ch :: r.1, r.2))
          | none => none
    else if c.toNat < 32 then none
    else (parseJStr rest).map (fun r => (c :: r.1, r.2))

/-- Is this an ASCII decimal digit? -/
def isDigitChar (c : Char) : Bool := decide (48 ≤ c.toNat ∧ c.toNat ≤ 57)

/-- Numeric value of a run of decimal digits. -/
def digitsToNat (l : List Char) : Nat :=
  l.foldl (fun acc c => acc * 10 + (c.toNat - 48)) 0

/-- Parse a JSON non-negative integer (rejecting leading zeros and any
fraction/exponent continuation, see the module comment). -/
def parseJNat (l : List Char) : Option (Nat × List Char) :=
  match l with
  | [] => none
  | c :: rest =>
    if ¬ isDigitChar c then none
    else
      let ds := rest.takeWhile isDigitChar
      let rest2 := rest.dropWhile isDigitChar
      if c = '0' ∧ ds ≠ [] then none
      else
        match rest2 with
        | d :: _ => if d = '.' ∨ d = 'e' ∨ d = 'E' then none
                    else some (digitsToNat (c :: ds), rest2)
        | [] => some (digitsToNat (c :: ds), rest2)

/-- Parse a JSON integer with optional sign. -/
def parseJInt (l : List Char) : Option (Int × List Char) :=
  match l with
  | '-' :: rest => (parseJNat rest).map (fun r => (-(r.1 : Int), r.2))
  | _ => (parseJNat l).map (fun r => ((r.1 : Int), r.2))

mutual

/-- Parse one JSON value (after skipping leading whitespace); the fuel
bounds the nesting depth. -/
def parseJVal : Nat → List Char → Option (JVal × List Char)
  | 0, _ => none
  | fuel + 1, l =>
    match jsonWs l with
    | [] => none
    | c :: rest =>
      if c = 'n' then
        if rest.take 3 = ['u', 'l', 'l'] then some (.null, rest.drop 3) else none
      else if c = 't' then
        if rest.take 3 = ['r', 'u', 'e'] then some (.bool true, rest.drop 3) else none
      else if c = 'f' then
        if rest.take 4 = ['a', 'l', 's', 'e'] then some (.bool false, rest.drop 4) else none
      else if c = '"' then
        (parseJStr rest).map (fun r => (.str r.1, r.2))
      else if c = '[' then
        match jsonWs rest with
        | ']' :: rest2 => some (.arr [], rest2)
        | r => (parseJArr fuel r).map (fun p => (.arr p.1, p.2))
      else if c = Char.ofNat 123 then
        match jsonWs rest with
        | '\x7d' :: rest2 => some (.obj [], rest2)
        | r => (parseJFields fuel r).map
            (fun p => (.obj (p.1.foldl (fun acc f => pySet acc f.1 f.2) []), p.2))
      else
        (parseJInt (c :: rest)).map (fun r => (.num r.1, r.2))

/-- Parse one or more comma-separated array elements up to `]`. -/
def parseJArr : Nat → List Char → Option (List JVal × List Char)
  | 0, _ => none
  | fuel + 1, l =>
    match parseJVal fuel l with
    | none => none
    | some (v, rest) =>
      match jsonWs rest with
      | ',' :: rest2 => (parseJArr fuel rest2).map (fun p => (v :: p.1, p.2))
      | ']' :: rest2 => some ([v], rest2)
      | _ => none

/-- Parse one or more `"key": value` fields up to the closing brace. -/
def parseJFields : Nat → List Char → Option (List (List Char × JVal) × List Char)
  | 0, _ => none
  | fuel + 1, l =>
    match jsonWs l with
    | '"' :: rest =>
      match parseJStr rest with
      | none => none
      | some (k, rest1) =>
        match jsonWs rest1 with
        | ':' :: rest2 =>
          match parseJVal fuel rest2 with
          | none => none
          | some (v, rest3) =>
            match jsonWs rest3 with
            | ',' :: rest4 => (parseJFields fuel rest4).map (fun p => ((k, v) :: p.1, p.2))
            | '\x7d' :: rest4 => some ([(k, v)], rest4)
            | _ => none
        | _ => none
    | _ => none

end

/-- `json.loads`: parse a complete document, allowing trailing whitespace. -/
def json_loads (s : List Char) : Option JVal :=
  match parseJVal (s.length + 1) s with
  | some (v, rest) => if jsonWs rest = [] then some v else none
  | none => none

/-- `auto_decode`: BOM-aware text decoding. The model covers ASCII content
(after an optional UTF-8 BOM); other byte values would engage `chardet`'s
encoding guess and are modeled as a decode failure. -/
def auto_decode (bs : List Nat) : Option (List Char) :=
  let body := if bs.take 3 = [239, 187, 191] then bs.drop 3 else bs
  if body.all (fun b => b < 128) then some (body.map Char.ofNat) else none

end NpmAccel

namespace NpmAccel

/-! ## Filesystem and execution context

The `executor` context exposed to `NpmAccel` (file tests, reads, writes,
directory listing, `rm`/`mkdir`/`tar` commands, atomic writes) is modeled as
a pure state. Paths are flat strings; `locked` lists paths whose deletion
fails (modeling e.g. a permission error reported by `rm`, which the source
surfaces as `ExternalCommandFailed`). -/

/-- File payloads: raw bytes, or the packed directory snapshot written by
`tar -cf` (entries are paths relative to the packed directory). -/
inductive FData where
  | bytes (bs : List Nat)
  | archive (entries : List (String × FData))

/-- The modeled filesystem. -/
structure FS where
  files : List (String × FData)
  dirs : List String
  locked : List String

/-- First binding of a path in the file table. -/
def readFileD (fs : FS) (p : String) : Option FData := fs.files.lookup p

/-- `context.is_file`. -/
def is_file (fs : FS) (p : String) : Bool := (readFileD fs p).isSome

/-- Replace the binding of `p` (keeping its position) or append it. -/
def upsert : List (String × FData) → String → FData → List (String × FData)
  | [], p, d => [(p, d)]
  | (q, e) :: rest, p, d =>
    if q = p then (p, d) :: rest else (q, e) :: upsert rest p d

/-- `context.write_file` (and the effect of renaming a finished temporary
file onto its destination). -/
def write_file (fs : FS) (p : String) (d : FData) : FS :=
  { fs with files := upsert fs.files p d }

/-- Remove a path from the file table. -/
def removeFile (files : List (String × FData)) (p : String) : List (String × FData) :=
  files.filter (fun e => decide (e.1 ≠ p))

/-- Is `p` the directory `d` itself or beneath it? -/
def underDir (d p : String) : Bool := p == d || (d.data ++ ['/']).isPrefixOf p.data

/-- `context.is_directory`. -/
def is_directory (fs : FS) (p : String) : Bool := fs.dirs.contains p

/-- One `rm -f` operand: removing an absent file succeeds as a no-op;
removing a present but locked file fails and changes nothing; `rm -f` also
cannot remove a directory. -/
def rmF1 (fs : FS) (p : String) : FS × Bool :=
  if is_file fs p then
    if fs.locked.contains p then (fs, false)
    else ({ fs with files := removeFile fs.files p }, true)
  else if is_directory fs p then (fs, false)
  else (fs, true)

/-- `rm -f p₁ p₂ …`: every operand is attempted in order (as `rm` does) and
the command fails afterwards if any operand failed, which `context.execute`
raises as `ExternalCommandFailed`. -/
def rm_f (fs : FS) (ps : List String) : Except Err FS :=
  let result := ps.foldl (fun (acc : FS × Bool) p =>
    let r := rmF1 acc.1 p
    (r.1, acc.2 && r.2)) (fs, true)
  if result.2 then .ok result.1 else .error (.externalCommandFailed "rm")

/-- `rm -fr d`: removes everything at or under `d`; fails (leaving the state
unchanged) if anything to be removed is locked. -/
def rm_fr (fs : FS) (d : String) : Except Err FS :=
  if fs.files.any (fun e => underDir d e.1 && fs.locked.contains e.1) then
    .error (.externalCommandFailed "rm")
  else
    .ok { fs with
      files := fs.files.filter (fun e => !(underDir d e.1)),
      dirs := fs.dirs.filter (fun x => !(underDir d x)) }

/-- `mkdir -p`. -/
def mkdir_p (fs : FS) (d : String) : FS :=
  if fs.dirs.contains d then fs else { fs with dirs := d :: fs.dirs }

/-- The entry name of `p` inside directory `d`, if `p` is directly inside
`d`. -/
def entryName (d p : String) : Option String :=
  if (d.data ++ ['/']).isPrefixOf p.data then
    let rest := p.data.drop (d.data.length + 1)
    if rest.contains '/' || decide (rest = []) then none else some ⟨rest⟩
  else none

/-- `context.list_entries`: the names of files and directories directly
inside `d` (`os.listdir`; its order is unspecified, the model uses the file
table order). -/
def list_entries (fs : FS) (d : String) : List String :=
  (fs.files.map Prod.fst ++ fs.dirs).filterMap (entryName d)

/-- `clear_directory`: remove and recreate an existing directory, or create
a missing one. -/
def clear_directory (fs : FS) (directory : String) : Except Err FS := do
  let fs ← if is_directory fs directory then rm_fr fs directory else pure fs
  pure (mkdir_p fs directory)

/-- `tar -cf … -C modules_directory .`: pack the files under the directory
(with their relative names) into one archive payload. -/
def tarPack (fs : FS) (modules_directory : String) : FData :=
  .archive (fs.files.filterMap (fun e =>
    if (modules_directory.data ++ ['/']).isPrefixOf e.1.data then
      some (⟨e.1.data.drop (modules_directory.data.length + 1)⟩, e.2)
    else none))

/-- `tar -xf file -C dest`: unpack an archive into a directory. Fails
(`ExternalCommandFailed`) when the input file is missing or does not hold a
tar archive. -/
def tarExtract (fs : FS) (file : String) (dest : String) : Except Err FS :=
  match readFileD fs file with
  | none => .error (.externalCommandFailed "tar")
  | some (.bytes _) => .error (.externalCommandFailed "tar")
  | some (.archive entries) =>
    .ok (entries.foldl (fun acc e => write_file acc (dest ++ "/" ++ e.1) e.2) fs)

/-- `os.path.dirname`. -/
def dirName (p : String) : String :=
  ⟨(((p.data.reverse.dropWhile (fun c => decide (c ≠ '/'))).drop 1)).reverse⟩

end NpmAccel

namespace NpmAccel

/-! ## The cache operations of `NpmAccel` -/

/-- `re.sub(r"\.tar$", ".json", file_in_cache)`. Python's `$` matches at the
end of the string or just before one trailing newline, so both cases are
replaced. -/
def subTarJson (l : List Char) : List Char :=
  if l.length ≥ 4 ∧ l.drop (l.length - 4) = ".tar".data then
    l.take (l.length - 4) ++ ".json".data
  else if l.length ≥ 5 ∧ l.drop (l.length - 5) = ".tar\n".data then
    l.take (l.length - 5) ++ ".json\n".data
  else l

/-- `NpmAccel.get_metadata_file`. -/
def get_metadata_file (file_in_cache : String) : String := ⟨subTarJson file_in_cache.data⟩

/-- `NpmAccel.read_metadata`: parse the sidecar JSON file; a *missing* file
yields the empty record `{}`, while unreadable or unparseable content raises
(the `json.loads` call has no handler around it). -/
def read_metadata (fs : FS) (file_in_cache : String) : Except Err JVal :=
  let metadata_file := get_metadata_file file_in_cache
  if is_file fs metadata_file then
    match readFileD fs metadata_file with
    | some (.bytes bs) =>
      match auto_decode bs with
      | none => .error .unicodeError
      | some s =>
        match json_loads s with
        | none => .error .jsonError
        | some v => .ok v
    | _ => .error .jsonError
  else .ok (.obj [])

/-- `cache_metadata.get("cache-hits", 0) + 1`: Python integer addition, with
`bool` counting as an integer; any other stored value raises `TypeError`. -/
def hitsPlusOne : JVal → Except Err Int
  | .num n => .ok (n + 1)
  | .bool b => .ok ((if b then 1 else 0) + 1)
  | _ => .error .typeError

/-- `NpmAccel.write_metadata`: read the current record (defaults for a
missing file), merge the overrides, set `date-created` only when absent, set
`last-accessed` to the current time, bump `cache-hits`, and atomically
replace the sidecar file with the serialized record. The two `time.time()`
calls of the source are modeled as returning the same `now`. -/
def write_metadata (fs : FS) (file_in_cache : String) (overrides : PyDict)
    (now : Nat) : Except Err FS := do
  let metadata_file := get_metadata_file file_in_cache
  let v ← read_metadata fs file_in_cache
  match v with
  | .obj d =>
    let d := pyUpdate d overrides
    let d := if pyContains d "date-created".data then d
             else pySet d "date-created".data (.num now)
    let d := pySet d "last-accessed".data (.num now)
    let hits ← hitsPlusOne (pyGet d "cache-hits".data (.num 0))
    let d := pySet d "cache-hits".data (.num hits)
    pure (write_file fs metadata_file (.bytes ((jsonDumps (.obj d)).map Char.toNat)))
  | _ => .error .attributeError

/-- Case-insensitive hexadecimal digit (`[0-9A-F]` under `re.IGNORECASE`). -/
def isHexDigitCI (c : Char) : Bool :=
  decide ((48 ≤ c.toNat ∧ c.toNat ≤ 57) ∨ (65 ≤ c.toNat ∧ c.toNat ≤ 70) ∨
    (97 ≤ c.toNat ∧ c.toNat ≤ 102))

/-- `\.tar` under `re.IGNORECASE`: the flag applies to the whole pattern, so
the extension letters match in either case. -/
def tarExtCI (l : List Char) : Bool :=
  match l with
  | [d, t, a, r] =>
    decide (d = '.' ∧ (t = 't' ∨ t = 'T') ∧ (a = 'a' ∨ a = 'A') ∧ (r = 'r' ∨ r = 'R'))
  | _ => false

/-- `^[0-9A-F]{40}\.tar$` against a whole entry name (no trailing-newline
allowance). -/
def archivePatternCore (name : List Char) : Bool :=
  name.length = 44 && (name.take 40).all isHexDigitCI && tarExtCI (name.drop 40)

/-- `re.match` of the compiled pattern: anchored at the start, and `$` also
matches just before one trailing newline. -/
def archivePattern (name : List Char) : Bool :=
  archivePatternCore name ||
    (name.getLast? == some '\n' && archivePatternCore name.dropLast)

/-- `NpmAccel.find_archives`: the absolute names of the directory entries
matching the archive pattern. -/
def find_archives (fs : FS) (cache_directory : String) : List String :=
  (list_entries fs cache_directory).filterMap
    (fun entry => if archivePattern entry.data then
        some (cache_directory ++ "/" ++ entry)
      else none)

/-- Python `<=` on the `(last_accessed, file_in_cache)` tuples sorted by
`clean_cache`. -/
def pyEntryLe (a b : Int × String) : Bool :=
  decide (a.1 < b.1) || (decide (a.1 = b.1) && pyStrLe a.2.data b.2.data)

/-- `pyEntryLe` as a `Prop`-valued relation. -/
def entryLE (a b : Int × String) : Prop := pyEntryLe a b = true

instance : DecidableRel entryLE := fun _ _ => inferInstanceAs (Decidable (_ = true))

instance : IsTotal (Int × String) entryLE where
  total a b := by
    simp only [entryLE, pyEntryLe, Bool.or_eq_true, Bool.and_eq_true,
      decide_eq_true_eq]
    rcases lt_trichotomy a.1 b.1 with h | h | h
    · exact Or.inl (Or.inl h)
    · rcases pyStrLe_total a.2.data b.2.data with h2 | h2
      · exact Or.inl (Or.inr ⟨h, h2⟩)
      · exact Or.inr (Or.inr ⟨h.symm, h2⟩)
    · exact Or.inr (Or.inl h)

instance : IsTrans (Int × String) entryLE where
  trans a b c hab hbc := by
    simp only [entryLE, pyEntryLe, Bool.or_eq_true, Bool.and_eq_true,
      decide_eq_true_eq] at hab hbc ⊢
    rcases hab with hab | ⟨hab1, hab2⟩
    · rcases hbc with hbc | ⟨hbc1, _⟩
      · exact Or.inl (hab.trans hbc)
      · exact Or.inl (hbc1 ▸ hab)
    · rcases hbc with hbc | ⟨hbc1, hbc2⟩
      · exact Or.inl (hab1 ▸ hbc)
      · exact Or.inr ⟨hab1.trans hbc1, pyStrLe_trans hab2 hbc2⟩

instance : IsAntisymm (Int × String) entryLE where
  antisymm a b hab hba := by
    simp only [entryLE, pyEntryLe, Bool.or_eq_true, Bool.and_eq_true,
      decide_eq_true_eq] at hab hba
    rcases hab with hab | ⟨hab1, hab2⟩
    · rcases hba with hba | ⟨hba1, _⟩
      · exact absurd (hab.trans hba) (lt_irrefl a.1)
      · exact absurd hab (by rw [hba1]; exact lt_irrefl a.1)
    · rcases hba with hba | ⟨hba1, hba2⟩
      · exact absurd hba (by rw [hab1]; exact lt_irrefl b.1)
      · exact Prod.ext hab1 (String.ext (pyStrLe_antisymm hab2 hba2))

/-- Python list slicing `l[:j]` for an integer bound `j`. -/
def pySliceTo (l : List α) (j : Int) : List α :=
  if j < 0 then l.take ((l.length : Int) + j).toNat else l.take j.toNat

/-- The `last-accessed` field read during the collection phase of
`clean_cache`. Only integer (or absent) values are modeled; a non-integer
value makes the later tuple sort raise in Python when mixed with integers
and is modeled as an error here. A non-object record raises `AttributeError`
at `.get`, as in Python. -/
def lastAccessedOf (fs : FS) (f : String) : Except Err Int := do
  let md ← read_metadata fs f
  match md with
  | .obj d =>
    match pyGet d "last-accessed".data (.num 0) with
    | .num n => pure n
    | _ => throw .typeError
  | _ => throw .attributeError

/-- `NpmAccel.clean_cache`: pair every archive with its `last-accessed`
stamp, sort the `(stamp, name)` tuples ascending, and delete archive and
metadata files of every entry except the `cache_limit` greatest (Python's
`sorted(entries)[: -cache_limit]`). -/
def clean_cache (fs : FS) (cache_directory : String) (cache_limit : Int) :
    Except Err FS := do
  let entries ← (find_archives fs cache_directory).mapM
    (fun f => do pure ((← lastAccessedOf fs f), f))
  let to_remove := pySliceTo (List.insertionSort entryLE entries) (-cache_limit)
  to_remove.foldlM (fun acc e => rm_f acc [e.2, get_metadata_file e.2]) fs

end NpmAccel

namespace NpmAccel

/-- The temporary name used by `context.atomic_write`: the destination name,
a dash, and a random integer. -/
def tmpName (file_in_cache : String) (tmpSuffix : Nat) : String :=
  file_in_cache ++ "-" ++ ⟨natDecimal tmpSuffix⟩

/-- Atomic rename of a finished temporary file onto its destination. -/
def renameFile (fs : FS) (src dst : String) : FS :=
  match readFileD fs src with
  | none => fs
  | some d => write_file { fs with files := removeFile fs.files src } dst d

/-- `NpmAccel.add_to_cache`: create the cache directory, generate the tar
archive under a temporary name, rename it into place atomically, and touch
the metadata record. `tmpSuffix` stands for the random suffix chosen by
`atomic_write`; `now` for the clock. -/
def add_to_cache (fs : FS) (modules_directory file_in_cache : String)
    (tmpSuffix now : Nat) : Except Err FS := do
  let fs := mkdir_p fs (dirName file_in_cache)
  let payload := tarPack fs modules_directory
  let fs := write_file fs (tmpName file_in_cache tmpSuffix) payload
  let fs := renameFile fs (tmpName file_in_cache tmpSuffix) file_in_cache
  write_metadata fs file_in_cache [] now

/-- `NpmAccel.install_from_cache`: clear/create the `node_modules`
directory, unpack the archive into it, and touch the metadata record. -/
def install_from_cache (fs : FS) (file_in_cache modules_directory : String)
    (now : Nat) : Except Err FS := do
  let fs ← clear_directory fs modules_directory
  let fs ← tarExtract fs file_in_cache modules_directory
  write_metadata fs file_in_cache [] now

/-- `NpmAccel.extract_dependencies`: read and parse `package.json`, take its
`dependencies` mapping and (unless `production`) overlay `devDependencies`.
The model requires version values to be strings (a non-string value would
only surface later, in `repr`-based key computation, with a different
serialization than modeled here). -/
def extract_dependencies (fs : FS) (package_file : String) (production : Bool) :
    Except Err (List Dep) := do
  if ¬ is_file fs package_file then throw .missingPackageFileError
  else
    match readFileD fs package_file with
    | some (.bytes bs) =>
      match auto_decode bs with
      | none => throw .unicodeError
      | some s =>
        match json_loads s with
        | none => throw .jsonError
        | some (.obj top) =>
          match pyGet top "dependencies".data (.obj []) with
          | .obj d0 =>
            let merged ← if production then pure d0
              else
                match pyGet top "devDependencies".data (.obj []) with
                | .obj dd => pure (pyUpdate d0 dd)
                | _ => throw .typeError
            merged.mapM (fun f =>
              match f.2 with
              | .str v => pure ((f.1, v) : Dep)
              | _ => throw .typeError)
          | _ => throw .attributeError
        | some _ => throw .attributeError
    | _ => throw .jsonError

/-- The configuration and environment of one `NpmAccel` run: the cached
properties of the object, the clock, the random temporary-name suffix, and
the behavior of the external installer program (which may transform the
filesystem arbitrarily or fail). -/
structure Ctx where
  cache_directory : String
  cache_limit : Int
  read_from_cache : Bool
  write_to_cache : Bool
  production : Bool
  nodejs_version : List Char
  installer_version : List Char
  installer : FS → Except Err FS
  tmpSuffix : Nat
  now : Nat

/-- `NpmAccel.get_cache_file`: `os.path.join(cache_directory, "%s.tar" %
get_cache_key(...))`; a `UnicodeEncodeError` inside `get_cache_key`
propagates. -/
def get_cache_file (ctx : Ctx) (deps : List Dep) : Except Err String :=
  match get_cache_key deps ctx.nodejs_version ctx.installer_version with
  | none => .error .unicodeError
  | some key => .ok (ctx.cache_directory ++ "/" ++ (⟨key⟩ ++ ".tar"))

/-- `NpmAccel.install`: extract the dependencies; if there are any, either
unpack a hit from the cache or clear `node_modules`, run the installer with
`package.json` contents preserved, and optionally store the result; then
clean the cache. Returns the extracted dependencies, as the source does. -/
def install (ctx : Ctx) (fs : FS) (directory : String) :
    Except Err (FS × List Dep) := do
  let package_file := directory ++ "/package.json"
  let modules_directory := directory ++ "/node_modules"
  let deps ← extract_dependencies fs package_file ctx.production
  if deps = [] then pure (fs, deps)
  else do
    let file_in_cache ← get_cache_file ctx deps
    if ctx.read_from_cache && is_file fs file_in_cache then do
      let fs ← install_from_cache fs file_in_cache modules_directory ctx.now
      let fs ← clean_cache fs ctx.cache_directory ctx.cache_limit
      pure (fs, deps)
    else do
      let fs ← clear_directory fs modules_directory
      -- `with self.preserve_contents(package_file):` – save the contents,
      -- run the installer, write the saved contents back on normal exit
      let contents ← match readFileD fs package_file with
        | some d => pure d
        | none => throw .fileMissing
      let fs ← ctx.installer fs
      let fs := write_file fs package_file contents
      let fs ← if ctx.write_to_cache then
          add_to_cache fs modules_directory file_in_cache ctx.tmpSuffix ctx.now
        else pure fs
      let fs ← clean_cache fs ctx.cache_directory ctx.cache_limit
      pure (fs, deps)

end NpmAccel

namespace NpmAccel

/-! ## Dictionary lemmas -/

theorem lookup_pySet_self (d : PyDict) (k : List Char) (v : JVal) :
    (pySet d k v).lookup k = some v := by
  induction d with
  | nil => simp [pySet, List.lookup]
  | cons e rest ih =>
    obtain ⟨k', v'⟩ := e
    by_cases h : k' = k
    · subst h
      simp [pySet, List.lookup]
    · have hbeq : (k == k') = false :=
        beq_eq_false_iff_ne.mpr (fun he => h he.symm)
      simp only [pySet, if_neg h, List.lookup, hbeq]
      exact ih

theorem lookup_pySet_other (d : PyDict) (k q : List Char) (v : JVal)
    (h : q ≠ k) : (pySet d k v).lookup q = d.lookup q := by
  induction d with
  | nil =>
    have hbeq : (q == k) = false := beq_eq_false_iff_ne.mpr h
    simp [pySet, List.lookup, hbeq]
  | cons e rest ih =>
    obtain ⟨k', v'⟩ := e
    by_cases hk : k' = k
    · subst hk
      have hbeq : (q == k') = false := beq_eq_false_iff_ne.mpr h
      simp only [pySet, if_pos rfl, List.lookup, hbeq]
    · simp only [pySet, if_neg hk, List.lookup]
      cases hq : (q == k')
      · simp only [hq]
        exact ih
      · simp only [hq]

theorem pyContains_isSome (d : PyDict) (k : List Char) :
    pyContains d k = (d.lookup k).isSome := rfl

theorem pyGet_lookup (d : PyDict) (k : List Char) (dflt : JVal) :
    pyGet d k dflt = ((d.lookup k).getD dflt) := by
  unfold pyGet
  cases d.lookup k <;> rfl

theorem except_bind_ok {α β ε : Type} (x : α) (f : α → Except ε β) :
    (Except.ok x >>= f) = f x := rfl

theorem except_bind_err {α β ε : Type} (e : ε) (f : α → Except ε β) :
    ((Except.error e : Except ε α) >>= f) = Except.error e := rfl

theorem except_pure {α ε : Type} (x : α) :
    (pure x : Except ε α) = Except.ok x := rfl

/-! ## C5: `read_metadata` on missing and on malformed metadata -/

/-- **C5** (evaluation at the failing input): on a *missing* metadata file
`read_metadata` returns the empty record, as both its docstring and the spec
promise; but on a metadata file holding unparseable content (`b"not json"`)
it propagates the `json.loads` failure instead of degrading to the default
record, contradicting its own docstring ("If the cache metadata file cannot
be read or its contents can't be parsed as JSON then an empty dictionary is
returned"). -/
theorem read_metadata_missing_and_malformed :
    read_metadata
      ⟨[("c/0000000000000000000000000000000000000000.tar", .bytes [])],
        ["c"], []⟩
      "c/0000000000000000000000000000000000000000.tar" = .ok (.obj []) ∧
    read_metadata
      ⟨[("c/0000000000000000000000000000000000000000.tar", .bytes []),
        ("c/0000000000000000000000000000000000000000.json",
          .bytes ("not json".data.map Char.toNat))],
        ["c"], []⟩
      "c/0000000000000000000000000000000000000000.tar" = .error .jsonError :=
  ⟨rfl, rfl⟩

/-! ## C4: `write_metadata` -/

/-- **C4** (counterexample to the claim as stated): when the existing
metadata record is unreadable (malformed JSON), `write_metadata` does not
fall back to defaults — the parse error from `read_metadata` propagates and
nothing is written. -/
theorem write_metadata_unreadable :
    write_metadata
      ⟨[("c/0000000000000000000000000000000000000000.tar", .bytes []),
        ("c/0000000000000000000000000000000000000000.json",
          .bytes ("not json".data.map Char.toNat))],
        ["c"], []⟩
      "c/0000000000000000000000000000000000000000.tar" [] 100 =
      .error .jsonError := rfl

/-- **C4** (amended): whenever the current record is readable (a parseable
record, or the all-default record for an absent file), `write_metadata`
atomically replaces the sidecar file with the serialization of a record `r`
that is the current record merged with the overrides, except that
`date-created` is set only if not already present in the merged record (so
once set it is never overwritten), `last-accessed` is always set to the
clock value, and `cache-hits` is one more than the merged record's value.
The same operation serves new-entry creation (`d = []`) and
existing-entry access. -/
theorem write_metadata_touch (fs : FS) (file_in_cache : String)
    (overrides : PyDict) (now : Nat) (d : PyDict) (h0 : Int)
    (hread : read_metadata fs file_in_cache = .ok (.obj d))
    (hhits : pyGet (pyUpdate d overrides) "cache-hits".data (.num 0) = .num h0) :
    ∃ r : PyDict,
      write_metadata fs file_in_cache overrides now =
        .ok (write_file fs (get_metadata_file file_in_cache)
          (.bytes ((jsonDumps (.obj r)).map Char.toNat))) ∧
      (∀ k, k ≠ "date-created".data → k ≠ "last-accessed".data →
        k ≠ "cache-hits".data →
        r.lookup k = (pyUpdate d overrides).lookup k) ∧
      (pyContains (pyUpdate d overrides) "date-created".data = true →
        r.lookup "date-created".data = (pyUpdate d overrides).lookup "date-created".data) ∧
      (pyContains (pyUpdate d overrides) "date-created".data = false →
        r.lookup "date-created".data = some (.num now)) ∧
      r.lookup "last-accessed".data = some (.num now) ∧
      r.lookup "cache-hits".data = some (.num (h0 + 1)) := by
  have hne1 : "last-accessed".data ≠ "date-created".data := by decide
  have hne2 : "cache-hits".data ≠ "date-created".data := by decide
  have hne3 : "cache-hits".data ≠ "last-accessed".data := by decide
  unfold write_metadata
  rw [hread, except_bind_ok]
  simp only []
  set d1 := pyUpdate d overrides with hd1
  set d2 := if pyContains d1 "date-created".data then d1
    else pySet d1 "date-created".data (.num now) with hd2
  set d3 := pySet d2 "last-accessed".data (.num now) with hd3
  have hhits3 : pyGet d3 "cache-hits".data (.num 0) = .num h0 := by
    rw [hd3, pyGet_lookup, lookup_pySet_other _ _ _ _ hne3]
    have : d2.lookup "cache-hits".data = d1.lookup "cache-hits".data := by
      rw [hd2]
      split
      · rfl
      · exact lookup_pySet_other _ _ _ _ hne2
    rw [this, ← pyGet_lookup, hhits]
  rw [hhits3]
  simp only [hitsPlusOne, except_bind_ok, except_pure]
  refine ⟨pySet d3 "cache-hits".data (.num (h0 + 1)), rfl, ?_, ?_, ?_, ?_, ?_⟩
  · intro k hk1 hk2 hk3
    rw [lookup_pySet_other _ _ _ _ hk3, hd3, lookup_pySet_other _ _ _ _ hk2, hd2]
    split
    · rfl
    · exact lookup_pySet_other _ _ _ _ hk1
  · intro hpresent
    rw [lookup_pySet_other _ _ _ _ (Ne.symm hne2), hd3,
      lookup_pySet_other _ _ _ _ (Ne.symm hne1), hd2, if_pos hpresent]
  · intro habsent
    rw [lookup_pySet_other _ _ _ _ (Ne.symm hne2), hd3,
      lookup_pySet_other _ _ _ _ (Ne.symm hne1), hd2,
      if_neg (by rw [habsent]; exact Bool.false_ne_true)]
    exact lookup_pySet_self _ _ _
  · rw [lookup_pySet_other _ _ _ _ (Ne.symm hne3), hd3]
    exact lookup_pySet_self _ _ _
  · exact lookup_pySet_self _ _ _

theorem write_metadata_touch_witness :
    ∃ r : PyDict,
      write_metadata
        ⟨[("c/0000000000000000000000000000000000000000.tar", .bytes []),
          ("c/0000000000000000000000000000000000000000.json",
            .bytes ((jsonDumps (.obj [("date-created".data, .num 5),
              ("cache-hits".data, .num 2)])).map Char.toNat))],
          ["c"], []⟩
        "c/0000000000000000000000000000000000000000.tar" [] 100 =
        .ok (write_file
          ⟨[("c/0000000000000000000000000000000000000000.tar", .bytes []),
            ("c/0000000000000000000000000000000000000000.json",
              .bytes ((jsonDumps (.obj [("date-created".data, .num 5),
                ("cache-hits".data, .num 2)])).map Char.toNat))],
            ["c"], []⟩
          (get_metadata_file "c/0000000000000000000000000000000000000000.tar")
          (.bytes ((jsonDumps (.obj r)).map Char.toNat))) ∧
      (∀ k, k ≠ "date-created".data → k ≠ "last-accessed".data →
        k ≠ "cache-hits".data →
        r.lookup k = (pyUpdate [("date-created".data, .num 5),
          ("cache-hits".data, .num 2)] []).lookup k) ∧
      (pyContains (pyUpdate [("date-created".data, .num 5),
          ("cache-hits".data, .num 2)] []) "date-created".data = true →
        r.lookup "date-created".data = (pyUpdate [("date-created".data, .num 5),
          ("cache-hits".data, .num 2)] []).lookup "date-created".data) ∧
      (pyContains (pyUpdate [("date-created".data, .num 5),
          ("cache-hits".data, .num 2)] []) "date-created".data = false →
        r.lookup "date-created".data = some (.num 100)) ∧
      r.lookup "last-accessed".data = some (.num 100) ∧
      r.lookup "cache-hits".data = some (.num (2 + 1)) :=
  write_metadata_touch _ _ [] 100 [("date-created".data, .num 5),
    ("cache-hits".data, .num 2)] 2 (by rfl) (by rfl)

end NpmAccel

namespace NpmAccel

/-! ## Filesystem frame lemmas -/

theorem lookup_filter_of_keep {p : String} {files : List (String × FData)}
    (q : String × FData → Bool) (hkeep : ∀ e, e.1 = p → q e = true) :
    (files.filter q).lookup p = files.lookup p := by
  induction files with
  | nil => rfl
  | cons e rest ih =>
    by_cases he : e.1 = p
    · rw [List.filter_cons, if_pos (hkeep e he)]
      simp only [List.lookup]
      have : (p == e.1) = true := by rw [he]; exact beq_self_eq_true p
      rw [this]
    · rw [List.filter_cons]
      have hbeq : (p == e.1) = false := beq_eq_false_iff_ne.mpr (fun h => he h.symm)
      split
      · simp only [List.lookup, hbeq]
        exact ih
      · simp only [List.lookup, hbeq] at ih ⊢
        exact ih

theorem lookup_filter_none {p : String} {files : List (String × FData)}
    (q : String × FData → Bool) (habs : files.lookup p = none) :
    (files.filter q).lookup p = none := by
  induction files with
  | nil => rfl
  | cons e rest ih =>
    simp only [List.lookup] at habs
    cases hbeq : (p == e.1)
    · rw [hbeq] at habs
      rw [List.filter_cons]
      split
      · simp only [List.lookup, hbeq]
        exact ih habs
      · exact ih habs
    · rw [hbeq] at habs
      exact absurd habs (by simp)

theorem filter_ne_of_lookup_none {p : String} :
    ∀ {files : List (String × FData)}, files.lookup p = none →
      files.filter (fun e => decide (e.1 ≠ p)) = files := by
  intro files
  induction files with
  | nil => intro _; rfl
  | cons e rest ih =>
    intro habs
    simp only [List.lookup] at habs
    cases hbeq : (p == e.1)
    · rw [hbeq] at habs
      rw [List.filter_cons, if_pos]
      · rw [ih habs]
      · simp only [decide_eq_true_eq]
        intro he
        rw [he] at hbeq
        simp at hbeq
    · rw [hbeq] at habs
      exact absurd habs (by simp)

theorem removeFile_absent {fs : FS} {p : String}
    (habs : readFileD fs p = none) : removeFile fs.files p = fs.files := by
  unfold readFileD at habs
  unfold removeFile
  exact filter_ne_of_lookup_none habs

theorem clear_directory_reads {fs fs₁ : FS} {d : String}
    (h : clear_directory fs d = .ok fs₁) :
    (∀ p, underDir d p = false → readFileD fs₁ p = readFileD fs p) ∧
    (∀ p, readFileD fs p = none → readFileD fs₁ p = none) := by
  unfold clear_directory at h
  split at h
  · -- existing directory: `rm -fr` then `mkdir -p`
    cases hrm : rm_fr fs d with
    | error e =>
      rw [hrm, except_bind_err] at h
      exact Except.noConfusion h
    | ok fs' =>
      simp only [hrm, except_bind_ok, except_pure] at h
      unfold rm_fr at hrm
      split at hrm
      · exact absurd hrm (by simp)
      · have hfs' : fs'.files = fs.files.filter (fun e => !(underDir d e.1)) := by
          have := Except.ok.inj hrm
          rw [← this]
        have hfiles : fs₁.files = fs'.files := by
          have := Except.ok.inj h
          rw [← this]
          unfold mkdir_p
          split <;> rfl
        constructor
        · intro p hp
          unfold readFileD
          rw [hfiles, hfs']
          exact lookup_filter_of_keep _ (fun e he => by rw [he, hp]; rfl)
        · intro p hp
          unfold readFileD
          rw [hfiles, hfs']
          exact lookup_filter_none _ hp
  · -- missing directory: only `mkdir -p`
    rw [except_pure] at h
    have hfiles : fs₁.files = fs.files := by
      have := Except.ok.inj h
      rw [← this]
      unfold mkdir_p
      split <;> rfl
    exact ⟨fun p _ => by unfold readFileD; rw [hfiles],
      fun p hp => by unfold readFileD at hp ⊢; rw [hfiles]; exact hp⟩

/-! ## C6: `install_from_cache` on an absent archive -/

/-- **C6**: retrieving a fingerprint whose archive is absent fails — the
`tar -xf` of the missing file raises `ExternalCommandFailed` — and performs
no action beyond the documented clearing of the destination directory: at
the point of failure every path outside the destination directory is
untouched and no file (in particular no cache entry or metadata record for
the missing fingerprint) has been created anywhere. -/
theorem install_from_cache_absent (fs : FS)
    (file_in_cache modules_directory : String) (now : Nat)
    (habs : is_file fs file_in_cache = false) :
    (∃ e, install_from_cache fs file_in_cache modules_directory now = .error e) ∧
    (∀ fs₁, clear_directory fs modules_directory = .ok fs₁ →
      tarExtract fs₁ file_in_cache modules_directory =
        .error (.externalCommandFailed "tar") ∧
      (∀ p, underDir modules_directory p = false →
        readFileD fs₁ p = readFileD fs p) ∧
      (∀ p, readFileD fs p = none → readFileD fs₁ p = none)) := by
  have habs' : readFileD fs file_in_cache = none := by
    unfold is_file at habs
    cases h : readFileD fs file_in_cache
    · rfl
    · rw [h] at habs; exact absurd habs (by simp)
  have hmain : ∀ fs₁, clear_directory fs modules_directory = .ok fs₁ →
      tarExtract fs₁ file_in_cache modules_directory =
        .error (.externalCommandFailed "tar") ∧
      (∀ p, underDir modules_directory p = false →
        readFileD fs₁ p = readFileD fs p) ∧
      (∀ p, readFileD fs p = none → readFileD fs₁ p = none) := by
    intro fs₁ hclear
    obtain ⟨houter, habsence⟩ := clear_directory_reads hclear
    refine ⟨?_, houter, habsence⟩
    unfold tarExtract
    rw [habsence file_in_cache habs']
  constructor
  · unfold install_from_cache
    cases hclear : clear_directory fs modules_directory with
    | error e =>
      rw [except_bind_err]
      exact ⟨e, rfl⟩
    | ok fs₁ =>
      simp only [except_bind_ok]
      rw [(hmain fs₁ hclear).1, except_bind_err]
      exact ⟨.externalCommandFailed "tar", rfl⟩
  · exact hmain

theorem install_from_cache_absent_witness :
    (∃ e, install_from_cache ⟨[], [], []⟩
      "c/0000000000000000000000000000000000000000.tar" "proj/node_modules" 7 =
      .error e) ∧
    (∀ fs₁, clear_directory ⟨[], [], []⟩ "proj/node_modules" = .ok fs₁ →
      tarExtract fs₁ "c/0000000000000000000000000000000000000000.tar"
        "proj/node_modules" = .error (.externalCommandFailed "tar") ∧
      (∀ p, underDir "proj/node_modules" p = false →
        readFileD fs₁ p = readFileD ⟨[], [], []⟩ p) ∧
      (∀ p, readFileD ⟨[], [], []⟩ p = none → readFileD fs₁ p = none)) :=
  install_from_cache_absent ⟨[], [], []⟩ _ _ 7 (by rfl)

end NpmAccel

namespace NpmAccel

/-! ## C7: deletion of stale entries -/

/-- **C7** (amended): during the eviction pass, deleting a stale entry whose
metadata sidecar (or archive) is already absent succeeds as a no-op
(`rm -f`); however — contrary to the claim as stated — there is no per-entry
error recovery: when the `rm -f` of one stale entry fails, the exception
aborts the whole deletion loop and the remaining stale entries of that pass
are not deleted. -/
theorem clean_cache_deletion_behavior :
    (∀ (fs : FS) (p q : String),
      fs.locked.contains p = false → is_directory fs p = false →
      is_file fs q = false → is_directory fs q = false →
      rm_f fs [p, q] = .ok { fs with files := removeFile fs.files p }) ∧
    (∀ (fs : FS) (x : Int × String) (rest : List (Int × String)) (e : Err),
      rm_f fs [x.2, get_metadata_file x.2] = .error e →
      (x :: rest).foldlM (fun acc y => rm_f acc [y.2, get_metadata_file y.2]) fs =
        .error e) := by
  constructor
  · intro fs p q hlock hpdir hq hqdir
    have habsq : readFileD fs q = none := by
      unfold is_file at hq
      cases h : readFileD fs q
      · rfl
      · rw [h] at hq; exact absurd hq (by simp)
    have step1 : rmF1 fs p = ({ fs with files := removeFile fs.files p }, true) := by
      unfold rmF1
      cases hp : is_file fs p
      · rw [if_neg Bool.false_ne_true,
          if_neg (by rw [hpdir]; exact Bool.false_ne_true)]
        have habsp : readFileD fs p = none := by
          unfold is_file at hp
          cases h : readFileD fs p
          · rfl
          · rw [h] at hp; exact absurd hp (by simp)
        rw [removeFile_absent habsp]
      · rw [if_pos rfl, if_neg (by rw [hlock]; exact Bool.false_ne_true)]
    have hq2 : is_file { fs with files := removeFile fs.files p } q = false := by
      unfold is_file readFileD removeFile
      rw [lookup_filter_none _ habsq]
      rfl
    have hqdir2 : is_directory { fs with files := removeFile fs.files p } q = false :=
      hqdir
    have step2 : rmF1 { fs with files := removeFile fs.files p } q =
        ({ fs with files := removeFile fs.files p }, true) := by
      unfold rmF1
      rw [if_neg (by rw [hq2]; exact Bool.false_ne_true),
        if_neg (by rw [hqdir2]; exact Bool.false_ne_true)]
    unfold rm_f
    simp only [List.foldl, step1, step2]
    rfl
  · intro fs x rest e hfail
    simp only [List.foldlM_cons, hfail, except_bind_err]

theorem clean_cache_deletion_behavior_witness :
    rm_f ⟨[("c/a.tar", .bytes [])], ["c"], []⟩ ["c/a.tar", "c/a.json"] =
      .ok { (⟨[("c/a.tar", .bytes [])], ["c"], []⟩ : FS) with
        files := removeFile [("c/a.tar", .bytes [])] "c/a.tar" } ∧
    ([((1 : Int), "c/b.tar"), ((2 : Int), "c/c.tar")].foldlM
      (fun acc y => rm_f acc [y.2, get_metadata_file y.2])
      ⟨[("c/b.tar", .bytes []), ("c/c.tar", .bytes [])], ["c"], ["c/b.tar"]⟩) =
      .error (.externalCommandFailed "rm") :=
  ⟨clean_cache_deletion_behavior.1 ⟨[("c/a.tar", .bytes [])], ["c"], []⟩
      "c/a.tar" "c/a.json" rfl rfl rfl rfl,
   clean_cache_deletion_behavior.2
      ⟨[("c/b.tar", .bytes []), ("c/c.tar", .bytes [])], ["c"], ["c/b.tar"]⟩
      ((1 : Int), "c/b.tar") [((2 : Int), "c/c.tar")]
      (.externalCommandFailed "rm") rfl⟩

end NpmAccel

namespace NpmAccel

/-- **C7** (counterexample to the claim as stated): a cache holding three
stale-ordered entries with limit 1, where the oldest entry's archive cannot
be deleted — the failure is not logged-and-skipped: `clean_cache` aborts
with `ExternalCommandFailed` instead of continuing with (and deleting) the
remaining stale entry. -/
theorem clean_cache_abort_on_failure :
    clean_cache
      ⟨[("c/aaaaaaaaaaaaaaaaaaaaaaaaaaaaaaaaaaaaaaaa.tar", .bytes []),
        ("c/aaaaaaaaaaaaaaaaaaaaaaaaaaaaaaaaaaaaaaaa.json",
          .bytes ((jsonDumps (.obj [("last-accessed".data, .num 1)])).map Char.toNat)),
        ("c/bbbbbbbbbbbbbbbbbbbbbbbbbbbbbbbbbbbbbbbb.tar", .bytes []),
        ("c/bbbbbbbbbbbbbbbbbbbbbbbbbbbbbbbbbbbbbbbb.json",
          .bytes ((jsonDumps (.obj [("last-accessed".data, .num 2)])).map Char.toNat)),
        ("c/cccccccccccccccccccccccccccccccccccccccc.tar", .bytes []),
        ("c/cccccccccccccccccccccccccccccccccccccccc.json",
          .bytes ((jsonDumps (.obj [("last-accessed".data, .num 3)])).map Char.toNat))],
        ["c"],
        ["c/aaaaaaaaaaaaaaaaaaaaaaaaaaaaaaaaaaaaaaaa.tar"]⟩
      "c" 1 = .error (.externalCommandFailed "rm") := rfl

end NpmAccel

namespace NpmAccel

/-! ## C8: `find_archives` -/

/-- The discovery pattern exactly as the specification words it:
`^[0-9A-Fa-f]{40}\.tar$` as a full match of the entry name — forty
case-insensitive hexadecimal characters followed by the literal lowercase
extension `.tar`. -/
def specArchivePattern (name : List Char) : Bool :=
  decide (name.length = 44) && (name.take 40).all isHexDigitCI &&
    (name.drop 40 == ".tar".data)

/-- **C8** (counterexample to the claim as stated): the source compiles the
pattern with `re.IGNORECASE`, which applies to the whole pattern including
`\.tar`; a directory entry `<40 hex>.TAR` is therefore yielded by
`find_archives` although it does not match the pattern the claim states. -/
theorem find_archives_uppercase_extension :
    find_archives
      ⟨[("c/0000000000000000000000000000000000000000.TAR", .bytes [])],
        ["c"], []⟩ "c" =
      ["c/0000000000000000000000000000000000000000.TAR"] ∧
    specArchivePattern "0000000000000000000000000000000000000000.TAR".data = false :=
  ⟨rfl, rfl⟩

/-- The pattern that the source actually implements, spelled out
structurally: forty case-insensitive hex characters, a dot, the letters
`tar` each in either case (`re.IGNORECASE` covers the extension too), and —
because Python's `$` also matches before a final newline — optionally one
trailing newline. -/
def AmendedNamePattern (name : List Char) : Prop :=
  ∃ stem t a r tail, name = stem ++ '.' :: t :: a :: r :: tail ∧
    stem.length = 40 ∧ (∀ c ∈ stem, isHexDigitCI c = true) ∧
    (t = 't' ∨ t = 'T') ∧ (a = 'a' ∨ a = 'A') ∧ (r = 'r' ∨ r = 'R') ∧
    (tail = [] ∨ tail = ['\n'])

theorem archivePatternCore_iff (name : List Char) :
    archivePatternCore name = true ↔
      ∃ stem t a r, name = stem ++ ['.', t, a, r] ∧
        stem.length = 40 ∧ (∀ c ∈ stem, isHexDigitCI c = true) ∧
        (t = 't' ∨ t = 'T') ∧ (a = 'a' ∨ a = 'A') ∧ (r = 'r' ∨ r = 'R') := by
  unfold archivePatternCore
  simp only [Bool.and_eq_true, decide_eq_true_eq, List.all_eq_true]
  constructor
  · rintro ⟨⟨hlen, hhex⟩, htar⟩
    have hlen4 : (name.drop 40).length = 4 := by
      rw [List.length_drop, hlen]
    match hdrop : name.drop 40 with
    | [] => rw [hdrop] at hlen4; simp at hlen4
    | [_] => rw [hdrop] at hlen4; simp at hlen4
    | [_, _] => rw [hdrop] at hlen4; simp at hlen4
    | [_, _, _] => rw [hdrop] at hlen4; simp at hlen4
    | d :: t :: a :: r :: x :: rest => rw [hdrop] at hlen4; simp at hlen4
    | [d, t, a, r] =>
      rw [hdrop] at htar
      unfold tarExtCI at htar
      simp only [decide_eq_true_eq] at htar
      obtain ⟨hd, ht, ha, hr⟩ := htar
      subst hd
      refine ⟨name.take 40, t, a, r, ?_, ?_, ?_, ht, ha, hr⟩
      · rw [← hdrop]
        exact (List.take_append_drop 40 name).symm
      · rw [List.length_take, hlen]
        omega
      · intro c hc
        exact hhex c hc
  · rintro ⟨stem, t, a, r, hname, hlen, hhex, ht, ha, hr⟩
    subst hname
    have h1 : List.take 40 (stem ++ ['.', t, a, r]) = stem := List.take_left' hlen
    have h2 : List.drop 40 (stem ++ ['.', t, a, r]) = ['.', t, a, r] :=
      List.drop_left' hlen
    refine ⟨⟨?_, ?_⟩, ?_⟩
    · rw [List.length_append, hlen]
      rfl
    · rw [h1]
      exact hhex
    · rw [h2]
      unfold tarExtCI
      simp only [decide_eq_true_eq]
      refine ⟨?_, ht, ha, hr⟩
      trivial

/-- **C8** (amended): `find_archives` yields exactly the directory entries of
the cache directory whose names consist of forty case-insensitive
hexadecimal characters, a dot, and the letters `tar` in any case mixture
(`re.IGNORECASE` applies to the whole pattern), optionally followed by one
trailing newline (Python's `$`); every other entry is ignored. Each call is
a fresh pure function of the filesystem state and returns a finite list. -/
theorem find_archives_exactly (fs : FS) (cache_directory : String) :
    (∀ p, p ∈ find_archives fs cache_directory ↔
      ∃ entry, entry ∈ list_entries fs cache_directory ∧
        p = cache_directory ++ "/" ++ entry ∧ archivePattern entry.data = true) ∧
    (∀ name, archivePattern name = true ↔ AmendedNamePattern name) := by
  constructor
  · intro p
    unfold find_archives
    rw [List.mem_filterMap]
    constructor
    · rintro ⟨entry, hmem, hsome⟩
      by_cases hpat : archivePattern entry.data = true
      · rw [if_pos hpat] at hsome
        exact ⟨entry, hmem, (Option.some.inj hsome).symm, hpat⟩
      · rw [if_neg hpat] at hsome
        exact Option.noConfusion hsome
    · rintro ⟨entry, hmem, hp, hpat⟩
      exact ⟨entry, hmem, by rw [if_pos hpat, hp]⟩
  · intro name
    unfold archivePattern
    simp only [Bool.or_eq_true, Bool.and_eq_true, beq_iff_eq]
    constructor
    · rintro (hcore | ⟨hlast, hcore⟩)
      · obtain ⟨stem, t, a, r, hname, h40, hhex, ht, ha, hr⟩ :=
          (archivePatternCore_iff name).mp hcore
        exact ⟨stem, t, a, r, [], by simpa using hname, h40, hhex, ht, ha, hr,
          Or.inl rfl⟩
      · obtain ⟨stem, t, a, r, hname, h40, hhex, ht, ha, hr⟩ :=
          (archivePatternCore_iff name.dropLast).mp hcore
        have hre : name.dropLast ++ ['\n'] = name := by
          rcases name.eq_nil_or_concat with rfl | ⟨xs, x, rfl⟩
          · simp at hlast
          · rw [List.concat_eq_append] at hlast ⊢
            rw [List.getLast?_concat] at hlast
            rw [List.dropLast_concat, Option.some.inj hlast]
        refine ⟨stem, t, a, r, ['\n'], ?_, h40, hhex, ht, ha, hr, Or.inr rfl⟩
        rw [← hre, hname]
        simp
    · rintro ⟨stem, t, a, r, tail, hname, h40, hhex, ht, ha, hr, htail⟩
      rcases htail with rfl | rfl
      · refine Or.inl ((archivePatternCore_iff name).mpr
          ⟨stem, t, a, r, by simpa using hname, h40, hhex, ht, ha, hr⟩)
      · refine Or.inr ⟨?_, ?_⟩
        · have : name = (stem ++ ['.', t, a, r]) ++ ['\n'] := by
            rw [hname]; simp
          rw [this, List.getLast?_concat]
        · refine (archivePatternCore_iff name.dropLast).mpr
            ⟨stem, t, a, r, ?_, h40, hhex, ht, ha, hr⟩
          have : name = (stem ++ ['.', t, a, r]) ++ ['\n'] := by
            rw [hname]; simp
          rw [this, List.dropLast_concat]

theorem find_archives_exactly_witness :
    (∀ p, p ∈ find_archives
        ⟨[("c/eeeeeeeeeeeeeeeeeeeeeeeeeeeeeeeeeeeeeeee.tar", .bytes []),
          ("c/readme.txt", .bytes [])], ["c"], []⟩ "c" ↔
      ∃ entry, entry ∈ list_entries
          ⟨[("c/eeeeeeeeeeeeeeeeeeeeeeeeeeeeeeeeeeeeeeee.tar", .bytes []),
            ("c/readme.txt", .bytes [])], ["c"], []⟩ "c" ∧
        p = "c" ++ "/" ++ entry ∧ archivePattern entry.data = true) ∧
    (∀ name, archivePattern name = true ↔ AmendedNamePattern name) :=
  find_archives_exactly _ "c"

end NpmAccel

namespace NpmAccel

/-! ## C9: atomicity of `add_to_cache` -/

theorem lookup_upsert_self (files : List (String × FData)) (p : String) (d : FData) :
    (upsert files p d).lookup p = some d := by
  induction files with
  | nil => simp [upsert, List.lookup]
  | cons e rest ih =>
    obtain ⟨q, v⟩ := e
    by_cases h : q = p
    · subst h
      simp [upsert, List.lookup]
    · have hbeq : (p == q) = false :=
        beq_eq_false_iff_ne.mpr (fun he => h he.symm)
      simp only [upsert, if_neg h, List.lookup, hbeq]
      exact ih

theorem lookup_upsert_other (files : List (String × FData)) (p q : String)
    (d : FData) (h : q ≠ p) : (upsert files p d).lookup q = files.lookup q := by
  induction files with
  | nil =>
    have hbeq : (q == p) = false := beq_eq_false_iff_ne.mpr h
    simp [upsert, List.lookup, hbeq]
  | cons e rest ih =>
    obtain ⟨k, v⟩ := e
    by_cases hk : k = p
    · subst hk
      have hbeq : (q == k) = false := beq_eq_false_iff_ne.mpr h
      simp only [upsert, if_pos rfl, List.lookup, hbeq]
    · simp only [upsert, if_neg hk, List.lookup]
      cases hq : (q == k)
      · simp only [hq]
        exact ih
      · simp only [hq]

theorem readFileD_write_self (fs : FS) (p : String) (d : FData) :
    readFileD (write_file fs p d) p = some d :=
  lookup_upsert_self fs.files p d

theorem readFileD_write_other (fs : FS) (p q : String) (d : FData)
    (h : q ≠ p) : readFileD (write_file fs p d) q = readFileD fs q :=
  lookup_upsert_other fs.files p q d h

theorem readFileD_mkdir (fs : FS) (d : String) (p : String) :
    readFileD (mkdir_p fs d) p = readFileD fs p := by
  unfold mkdir_p readFileD
  split <;> rfl

theorem natDecimalAux_ne_nil (fuel n : Nat) : natDecimalAux (fuel + 1) n ≠ [] := by
  unfold natDecimalAux
  split
  · simp
  · simp

theorem tmpName_ne (file_in_cache : String) (tmpSuffix : Nat) :
    file_in_cache ≠ tmpName file_in_cache tmpSuffix := by
  intro h
  have hlen := congrArg String.length h
  rw [tmpName, String.length_append, String.length_append] at hlen
  have h1 : (String.mk (natDecimal tmpSuffix)).length ≥ 1 := by
    show (natDecimal tmpSuffix).length ≥ 1
    unfold natDecimal
    cases hc : natDecimalAux (tmpSuffix + 1) tmpSuffix with
    | nil => exact absurd hc (natDecimalAux_ne_nil tmpSuffix tmpSuffix)
    | cons x xs => simp
  have h2 : ("-" : String).length = 1 := rfl
  omega

/-- `get_metadata_file` changes a `.tar`-suffixed path (its length grows by
one), so the metadata write never touches the archive path. -/
theorem get_metadata_file_ne (f : String)
    (htar : f.data.length ≥ 4 ∧ f.data.drop (f.data.length - 4) = ".tar".data) :
    get_metadata_file f ≠ f := by
  intro h
  have hdata := congrArg String.data h
  have : (subTarJson f.data).length = f.data.length := by
    rw [show (get_metadata_file f).data = subTarJson f.data from rfl] at hdata
    rw [hdata]
  unfold subTarJson at this
  rw [if_pos htar] at this
  rw [List.length_append, List.length_take] at this
  have h5 : (".json".data).length = 5 := rfl
  rw [h5] at this
  omega

/-- If `write_metadata` succeeds, the only path it writes is the metadata
sidecar file. -/
theorem write_metadata_frame {fs fs' : FS} {f : String} {ov : PyDict} {now : Nat}
    (h : write_metadata fs f ov now = .ok fs') :
    ∀ p, p ≠ get_metadata_file f → readFileD fs' p = readFileD fs p := by
  intro p hp
  unfold write_metadata at h
  cases hread : read_metadata fs f with
  | error e =>
    rw [hread, except_bind_err] at h
    exact Except.noConfusion h
  | ok v =>
    rw [hread, except_bind_ok] at h
    match v with
    | .null | .bool _ | .num _ | .str _ | .arr _ => exact Except.noConfusion h
    | .obj d =>
      simp only [] at h
      cases hhits : hitsPlusOne (pyGet (pySet (if pyContains (pyUpdate d ov)
          "date-created".data then pyUpdate d ov
        else pySet (pyUpdate d ov) "date-created".data (.num now))
          "last-accessed".data (.num now)) "cache-hits".data (.num 0)) with
      | error e =>
        rw [hhits, except_bind_err] at h
        exact Except.noConfusion h
      | ok hits =>
        rw [hhits, except_bind_ok, except_pure] at h
        rw [← Except.ok.inj h]
        exact readFileD_write_other _ _ _ _ hp

/-- The filesystem states observable while `add_to_cache` runs, up to (and
not including) the atomic rename: the initial state, the state after
`mkdir -p`, and the states while `tar -cf` grows the temporary file through
arbitrary partial payloads. Each modeled step is one atomic state
transition, so a concurrent reader sees exactly one of these states (or a
post-rename state). -/
def add_to_cache_trace (fs : FS) (file_in_cache : String)
    (tmpSuffix : Nat) (partials : List FData) : List FS :=
  let fs1 := mkdir_p fs (dirName file_in_cache)
  fs :: fs1 :: partials.map (fun d => write_file fs1 (tmpName file_in_cache tmpSuffix) d)

/-- **C9**: a store is atomic with respect to concurrent readers of the
archive path. In every state before the rename — whatever partial content
the temporary file holds — reading the archive path yields exactly what it
held initially (the fully-old content, or absence), never a partial
archive; and when `add_to_cache` succeeds, the archive path holds the
complete packed payload. The temporary name (destination plus `-suffix`)
never collides with the destination. -/
theorem add_to_cache_atomic (fs : FS) (modules_directory file_in_cache : String)
    (tmpSuffix now : Nat) (partials : List FData)
    (htar : file_in_cache.data.length ≥ 4 ∧
      file_in_cache.data.drop (file_in_cache.data.length - 4) = ".tar".data) :
    (∀ s ∈ add_to_cache_trace fs file_in_cache tmpSuffix partials,
      readFileD s file_in_cache = readFileD fs file_in_cache) ∧
    (∀ fs', add_to_cache fs modules_directory file_in_cache tmpSuffix now = .ok fs' →
      readFileD fs' file_in_cache =
        some (tarPack (mkdir_p fs (dirName file_in_cache)) modules_directory)) := by
  constructor
  · intro s hs
    unfold add_to_cache_trace at hs
    simp only [List.mem_cons, List.mem_map] at hs
    rcases hs with rfl | rfl | ⟨d, _, rfl⟩
    · rfl
    · exact readFileD_mkdir fs _ file_in_cache
    · rw [readFileD_write_other _ _ _ _ (tmpName_ne file_in_cache tmpSuffix)]
      exact readFileD_mkdir fs _ file_in_cache
  · intro fs' hok
    unfold add_to_cache at hok
    simp only [] at hok
    set fs1 := mkdir_p fs (dirName file_in_cache) with hfs1
    set payload := tarPack fs1 modules_directory with hpayload
    set fs2 := write_file fs1 (tmpName file_in_cache tmpSuffix) payload with hfs2
    have htmp : readFileD fs2 (tmpName file_in_cache tmpSuffix) = some payload :=
      readFileD_write_self fs1 _ payload
    have hfile3 : readFileD (renameFile fs2 (tmpName file_in_cache tmpSuffix)
        file_in_cache) file_in_cache = some payload := by
      unfold renameFile
      rw [htmp]
      exact readFileD_write_self _ _ payload
    rw [write_metadata_frame hok file_in_cache
      (Ne.symm (get_metadata_file_ne file_in_cache htar))]
    exact hfile3

theorem add_to_cache_atomic_witness :
    (∀ s ∈ add_to_cache_trace
        ⟨[("p/node_modules/a.js", .bytes [1])], ["p/node_modules"], []⟩
        "c/0000000000000000000000000000000000000000.tar" 9
        [.bytes [], .bytes [1], .bytes [1, 2]],
      readFileD s "c/0000000000000000000000000000000000000000.tar" =
        readFileD ⟨[("p/node_modules/a.js", .bytes [1])], ["p/node_modules"], []⟩
          "c/0000000000000000000000000000000000000000.tar") ∧
    (∀ fs', add_to_cache
        ⟨[("p/node_modules/a.js", .bytes [1])], ["p/node_modules"], []⟩
        "p/node_modules" "c/0000000000000000000000000000000000000000.tar" 9 5 =
        .ok fs' →
      readFileD fs' "c/0000000000000000000000000000000000000000.tar" =
        some (tarPack (mkdir_p
          ⟨[("p/node_modules/a.js", .bytes [1])], ["p/node_modules"], []⟩
          (dirName "c/0000000000000000000000000000000000000000.tar"))
          "p/node_modules")) :=
  add_to_cache_atomic _ _ _ 9 5 _ (by constructor <;> decide)

end NpmAccel

namespace NpmAccel

/-! ## C3: the eviction pass -/

/-- The `last-accessed` stamp that the collection phase of `clean_cache`
pairs with an archive (meaningful when `lastAccessedOf` succeeds). -/
def stampOrZero (fs : FS) (f : String) : Int :=
  match lastAccessedOf fs f with
  | .ok n => n
  | .error _ => 0

/-- The ascending `(last_accessed, file_in_cache)` order that `clean_cache`
sorts the entries into. -/
def evictionOrder (fs : FS) (cache_directory : String) : List (Int × String) :=
  List.insertionSort entryLE
    ((find_archives fs cache_directory).map (fun f => (stampOrZero fs f, f)))

theorem mapM_lastAccessed {fs : FS} :
    ∀ {l : List String}, (∀ f ∈ l, ∃ n, lastAccessedOf fs f = .ok n) →
      (l.mapM (fun f => do pure ((← lastAccessedOf fs f), f)) : Except Err _) =
        .ok (l.map (fun f => (stampOrZero fs f, f))) := by
  intro l
  induction l with
  | nil => intro _; rfl
  | cons f rest ih =>
    intro h
    obtain ⟨n, hn⟩ := h f (by simp)
    have hstamp : stampOrZero fs f = n := by unfold stampOrZero; rw [hn]
    have ih' := ih (fun g hg => h g (by simp [hg]))
    simp only [except_pure] at ih'
    simp only [List.mapM_cons, except_pure, hn, except_bind_ok, ih',
      List.map_cons, hstamp]

theorem pySliceTo_neg {α : Type} (l : List α) (limit : Int) (h : 0 < limit) :
    pySliceTo l (-limit) = l.take (l.length - limit.toNat) := by
  unfold pySliceTo
  rw [if_pos (by omega)]
  congr 1
  omega

theorem rmF1_clean {fs : FS} {p : String} (hlock : fs.locked = [])
    (hdir : is_directory fs p = false) :
    rmF1 fs p = ({ fs with files := removeFile fs.files p }, true) := by
  unfold rmF1
  cases hp : is_file fs p
  · rw [if_neg Bool.false_ne_true, if_neg (by rw [hdir]; exact Bool.false_ne_true)]
    have habsp : readFileD fs p = none := by
      unfold is_file at hp
      cases h : readFileD fs p
      · rfl
      · rw [h] at hp; exact absurd hp (by simp)
    rw [removeFile_absent habsp]
  · rw [if_pos rfl, if_neg (by rw [hlock]; simp [List.contains])]

theorem rm_f_clean {fs : FS} {p q : String} (hlock : fs.locked = [])
    (hdirp : is_directory fs p = false) (hdirq : is_directory fs q = false) :
    rm_f fs [p, q] =
      .ok { fs with files := removeFile (removeFile fs.files p) q } := by
  have h1 := rmF1_clean hlock hdirp
  have h2 : rmF1 { fs with files := removeFile fs.files p } q =
      ({ fs with files := removeFile (removeFile fs.files p) q }, true) :=
    @rmF1_clean { fs with files := removeFile fs.files p } q hlock hdirq
  unfold rm_f
  simp only [List.foldl, h1, h2]
  rfl

theorem readFileD_removeFile_self (fs : FS) (p : String) :
    List.lookup p (removeFile fs.files p) = none := by
  unfold removeFile
  induction fs.files with
  | nil => rfl
  | cons e rest ih =>
    rw [List.filter_cons]
    by_cases he : e.1 = p
    · rw [if_neg (by simp [he])]
      exact ih
    · rw [if_pos (by simp [he])]
      simp only [List.lookup]
      have : (p == e.1) = false := beq_eq_false_iff_ne.mpr (fun h => he h.symm)
      rw [this]
      exact ih

theorem readFileD_removeFile_other (files : List (String × FData)) (p q : String)
    (h : q ≠ p) : List.lookup q (removeFile files p) = List.lookup q files := by
  unfold removeFile
  induction files with
  | nil => rfl
  | cons e rest ih =>
    rw [List.filter_cons]
    by_cases he : e.1 = p
    · rw [if_neg (by simp [he])]
      simp only [List.lookup]
      have : (q == e.1) = false := beq_eq_false_iff_ne.mpr (by rw [he]; exact h)
      rw [this]
      exact ih
    · rw [if_pos (by simp [he])]
      simp only [List.lookup]
      cases hq : (q == e.1)
      · simp only [hq]; exact ih
      · simp only [hq]

/-- The deletion loop of `clean_cache`: with no locked paths and no
directories among the victims, it succeeds, removes exactly the victims'
archive and metadata paths, and leaves everything else intact. -/
theorem clean_removal_fold :
    ∀ (rem : List (Int × String)) (fs : FS), fs.locked = [] →
      (∀ e ∈ rem, is_directory fs e.2 = false ∧
        is_directory fs (get_metadata_file e.2) = false) →
      ∃ fs', (rem.foldlM (fun acc e => rm_f acc [e.2, get_metadata_file e.2]) fs
          = .ok fs') ∧
        fs'.dirs = fs.dirs ∧ fs'.locked = fs.locked ∧
        (∀ p, (∃ e ∈ rem, p = e.2 ∨ p = get_metadata_file e.2) →
          readFileD fs' p = none) ∧
        (∀ p, (∀ e ∈ rem, p ≠ e.2 ∧ p ≠ get_metadata_file e.2) →
          readFileD fs' p = readFileD fs p) := by
  intro rem
  induction rem with
  | nil =>
    intro fs _ _
    exact ⟨fs, rfl, rfl, rfl, fun p hp => by simp at hp, fun p _ => rfl⟩
  | cons e rest ih =>
    intro fs hlock hdirs
    have hstep := @rm_f_clean fs e.2 (get_metadata_file e.2)
      hlock (hdirs e (by simp)).1 (hdirs e (by simp)).2
    obtain ⟨fs', hfold, hdirs', hlock', hgone, hkeep⟩ :=
      ih { fs with files := removeFile (removeFile fs.files e.2) (get_metadata_file e.2) } hlock (fun x hx => hdirs x (by simp [hx]))
    refine ⟨fs', ?_, hdirs', hlock', ?_, ?_⟩
    · rw [List.foldlM_cons, hstep, except_bind_ok]
      exact hfold
    · intro p hp
      obtain ⟨x, hx, hpx⟩ := hp
      rcases List.mem_cons.mp hx with rfl | hx
      · -- a path of the first victim: already removed before the loop over
        -- the remaining victims, which never re-creates files
        have h1 : readFileD { fs with files := removeFile (removeFile fs.files x.2) (get_metadata_file x.2) } p = none := by
          rcases hpx with rfl | rfl
          · show List.lookup x.2 (removeFile (removeFile fs.files x.2) _) = none
            by_cases hsame : x.2 = get_metadata_file x.2
            · rw [← hsame]
              exact readFileD_removeFile_self
                { fs with files := removeFile fs.files x.2 } x.2
            · rw [readFileD_removeFile_other _ _ _ hsame]
              exact readFileD_removeFile_self fs x.2
          · exact readFileD_removeFile_self
              { fs with files := removeFile fs.files x.2 } (get_metadata_file x.2)
        by_cases hrest : ∀ y ∈ rest, p ≠ y.2 ∧ p ≠ get_metadata_file y.2
        · rw [hkeep p hrest]
          exact h1
        · push_neg at hrest
          obtain ⟨y, hy, hpy⟩ := hrest
          apply hgone
          by_cases h2 : p = y.2
          · exact ⟨y, hy, Or.inl h2⟩
          · exact ⟨y, hy, Or.inr (hpy h2)⟩
      · exact hgone p ⟨x, hx, hpx⟩
    · intro p hp
      have h1 : readFileD { fs with files := removeFile (removeFile fs.files e.2) (get_metadata_file e.2) } p = readFileD fs p := by
        show List.lookup p _ = _
        rw [readFileD_removeFile_other _ _ _ (hp e (by simp)).2]
        exact readFileD_removeFile_other _ _ _ (hp e (by simp)).1
      rw [hkeep p (fun y hy => hp y (by simp [hy])), h1]

end NpmAccel

namespace NpmAccel

/-- The last two characters of a string, if it has at least two. -/
def last2 (l : List Char) : Option (Char × Char) :=
  match l.reverse with
  | y :: x :: _ => some (x, y)
  | _ => none

theorem last2_append (X : List Char) (a b : Char) :
    last2 (X ++ [a, b]) = some (a, b) := by
  unfold last2
  rw [List.reverse_append]
  rfl

/-- Every name that `find_archives` yields ends in a case variant of `tar`,
or in such a variant followed by one newline. -/
theorem archive_suffix {fs : FS} {cdir : String} {f : String}
    (hf : f ∈ find_archives fs cdir) :
    (∃ a r, (a = 'a' ∨ a = 'A') ∧ (r = 'r' ∨ r = 'R') ∧
      last2 f.data = some (a, r)) ∨
    (∃ r, (r = 'r' ∨ r = 'R') ∧ last2 f.data = some (r, '\n')) := by
  unfold find_archives at hf
  rw [List.mem_filterMap] at hf
  obtain ⟨entry, hmem, hsome⟩ := hf
  by_cases hpat : archivePattern entry.data = true
  · rw [if_pos hpat] at hsome
    have hfdata : f.data = (cdir ++ "/").data ++ entry.data := by
      rw [← Option.some.inj hsome]
      rw [String.data_append]
    unfold archivePattern at hpat
    simp only [Bool.or_eq_true, Bool.and_eq_true, beq_iff_eq] at hpat
    rcases hpat with hcore | ⟨hlast, hcore⟩
    · obtain ⟨stem, t, a, r, hname, _, _, _, ha, hr⟩ :=
        (archivePatternCore_iff entry.data).mp hcore
      left
      refine ⟨a, r, ha, hr, ?_⟩
      have : f.data = ((cdir ++ "/").data ++ stem ++ ['.', t]) ++ [a, r] := by
        rw [hfdata, hname]
        simp
      rw [this, last2_append]
    · obtain ⟨stem, t, a, r, hname, _, _, _, _, hr⟩ :=
        (archivePatternCore_iff entry.data.dropLast).mp hcore
      right
      refine ⟨r, hr, ?_⟩
      have hdl : entry.data.dropLast ++ ['\n'] = entry.data := by
        rcases entry.data.eq_nil_or_concat with hnil | ⟨xs, x, hx⟩
        · rw [hnil] at hlast; simp at hlast
        · rw [hx, List.concat_eq_append] at hlast ⊢
          rw [List.getLast?_concat] at hlast
          rw [List.dropLast_concat, Option.some.inj hlast]
      have : f.data = ((cdir ++ "/").data ++ stem ++ ['.', t, a]) ++ [r, '\n'] := by
        rw [hfdata, ← hdl, hname]
        simp
      rw [this, last2_append]
  · rw [if_neg hpat] at hsome
    exact Option.noConfusion hsome

/-- The metadata path is the archive path itself (when the archive path has
no `.tar` suffix to replace) or ends in `on` / `n\n` (from `.json`). -/
theorem metadata_shape (f : String) :
    get_metadata_file f = f ∨
    last2 (get_metadata_file f).data = some ('o', 'n') ∨
    last2 (get_metadata_file f).data = some ('n', '\n') := by
  have hdata : (get_metadata_file f).data = subTarJson f.data := rfl
  unfold subTarJson at hdata
  split at hdata
  · right; left
    rw [hdata]
    have : f.data.take (f.data.length - 4) ++ ".json".data =
        (f.data.take (f.data.length - 4) ++ ['.', 'j', 's']) ++ ['o', 'n'] := by
      simp
    rw [this, last2_append]
  · split at hdata
    · right; right
      rw [hdata]
      have : f.data.take (f.data.length - 5) ++ ".json\n".data =
          (f.data.take (f.data.length - 5) ++ ['.', 'j', 's', 'o']) ++ ['n', '\n'] := by
        simp
      rw [this, last2_append]
    · left
      apply String.ext
      rw [hdata]

end NpmAccel

namespace NpmAccel

/-- One archive path never equals the metadata path of a *different*
archive: the suffixes (`tar`-variants vs `.json`, with possible trailing
newlines) cannot match. -/
theorem archive_ne_metadata {fs : FS} {cdir : String} {f g : String}
    (hf : f ∈ find_archives fs cdir) (hne : f ≠ g) :
    f ≠ get_metadata_file g := by
  rcases metadata_shape g with hm | hm | hm
  · rw [hm]; exact hne
  · intro hcon
    rw [← hcon] at hm
    rcases archive_suffix hf with ⟨a, r, _, hr, h2⟩ | ⟨r, hr, h2⟩
    · rw [h2] at hm
      have := Option.some.inj hm
      rcases hr with rfl | rfl <;> simp at this
    · rw [h2] at hm
      have := Option.some.inj hm
      simp at this
  · intro hcon
    rw [← hcon] at hm
    rcases archive_suffix hf with ⟨a, r, _, hr, h2⟩ | ⟨r, hr, h2⟩
    · rw [h2] at hm
      have := Option.some.inj hm
      rcases hr with rfl | rfl <;> simp at this
    · rw [h2] at hm
      have := Option.some.inj hm
      rcases hr with rfl | rfl <;> simp at this

/-- Counting lemma: filtering out a duplicate-free subset removes exactly
its cardinality. -/
theorem filter_not_mem_length {l R : List String} (hl : l.Nodup) (hR : R.Nodup)
    (hsub : ∀ x ∈ R, x ∈ l) :
    (l.filter (fun f => !(decide (f ∈ R)))).length = l.length - R.length := by
  have hsplit := List.length_eq_length_filter_add (l := l)
    (fun f => decide (f ∈ R))
  have hmemlen : (l.filter (fun f => decide (f ∈ R))).length = R.length := by
    have hperm : (l.filter (fun f => decide (f ∈ R))).Perm R := by
      rw [List.perm_ext_iff_of_nodup (hl.filter _) hR]
      intro a
      simp only [List.mem_filter, decide_eq_true_eq]
      exact ⟨fun h => h.2, fun h => ⟨hsub a h, h⟩⟩
    exact hperm.length_eq
  omega

end NpmAccel

namespace NpmAccel

/-- **C3** (amended): for every cache state in which each listed archive is a
regular deletable file whose metadata is readable (absent, or a parseable
record whose `last-accessed` is an integer) and no deletion fails, and for
every positive limit: `clean_cache` succeeds; the evicted entries are
exactly the front `max(0, n - limit)` of the list of `(last-accessed,
pathname)` tuples sorted ascending — the fingerprint-derived name being the
deterministic tie-break — both the archive file and the metadata file of
every evicted entry are deleted, no other file is touched, and exactly
`min(n, limit)` entries remain. (The unamended claim fails on caches with
unreadable metadata, where the pass aborts; see the counterexample.) -/
theorem clean_cache_bounded (fs : FS) (cache_directory : String)
    (cache_limit : Int) (hlim : 0 < cache_limit) (hlock : fs.locked = [])
    (hread : ∀ f ∈ find_archives fs cache_directory,
      ∃ n, lastAccessedOf fs f = .ok n)
    (harc : ∀ f ∈ find_archives fs cache_directory, is_file fs f = true)
    (hdirA : ∀ f ∈ find_archives fs cache_directory, is_directory fs f = false)
    (hdirM : ∀ f ∈ find_archives fs cache_directory,
      is_directory fs (get_metadata_file f) = false)
    (hnd : (find_archives fs cache_directory).Nodup) :
    ∃ fs', clean_cache fs cache_directory cache_limit = .ok fs' ∧
      pySliceTo (evictionOrder fs cache_directory) (-cache_limit) =
        (evictionOrder fs cache_directory).take
          ((find_archives fs cache_directory).length - cache_limit.toNat) ∧
      (∀ e ∈ (evictionOrder fs cache_directory).take
          ((find_archives fs cache_directory).length - cache_limit.toNat),
        is_file fs' e.2 = false ∧ is_file fs' (get_metadata_file e.2) = false) ∧
      (∀ p, (∀ e ∈ (evictionOrder fs cache_directory).take
          ((find_archives fs cache_directory).length - cache_limit.toNat),
          p ≠ e.2 ∧ p ≠ get_metadata_file e.2) →
        readFileD fs' p = readFileD fs p) ∧
      ((find_archives fs cache_directory).filter
        (fun f => is_file fs' f)).length =
        min (find_archives fs cache_directory).length cache_limit.toNat := by
  have hlenE : (evictionOrder fs cache_directory).length =
      (find_archives fs cache_directory).length := by
    unfold evictionOrder
    rw [List.length_insertionSort, List.length_map]
  have hslice : pySliceTo (evictionOrder fs cache_directory) (-cache_limit) =
      (evictionOrder fs cache_directory).take
        ((find_archives fs cache_directory).length - cache_limit.toNat) := by
    rw [pySliceTo_neg _ _ hlim, hlenE]
  have hpermE : (evictionOrder fs cache_directory).Perm
      ((find_archives fs cache_directory).map
        (fun f => (stampOrZero fs f, f))) :=
    List.perm_insertionSort entryLE _
  have hsnd : ∀ e ∈ (evictionOrder fs cache_directory).take
      ((find_archives fs cache_directory).length - cache_limit.toNat),
      e.2 ∈ find_archives fs cache_directory := by
    intro e he
    have h1 : e ∈ evictionOrder fs cache_directory :=
      (List.take_sublist _ _).mem he
    have h2 := hpermE.mem_iff.mp h1
    obtain ⟨f, hf, hfe⟩ := List.mem_map.mp h2
    rw [← hfe]
    exact hf
  obtain ⟨fs', hfold, _, _, hgone, hkeep⟩ :=
    clean_removal_fold
      ((evictionOrder fs cache_directory).take
        ((find_archives fs cache_directory).length - cache_limit.toNat)) fs hlock
      (fun e he => ⟨hdirA e.2 (hsnd e he), hdirM e.2 (hsnd e he)⟩)
  refine ⟨fs', ?_, hslice, ?_, hkeep, ?_⟩
  · unfold clean_cache
    rw [mapM_lastAccessed hread, except_bind_ok]
    simp only []
    have hsort : List.insertionSort entryLE
        ((find_archives fs cache_directory).map (fun f => (stampOrZero fs f, f))) =
        evictionOrder fs cache_directory := rfl
    rw [hsort, hslice]
    exact hfold
  · intro e he
    constructor
    · have := hgone e.2 ⟨e, he, Or.inl rfl⟩
      unfold is_file
      rw [this]
      rfl
    · have := hgone (get_metadata_file e.2) ⟨e, he, Or.inr rfl⟩
      unfold is_file
      rw [this]
      rfl
  · -- counting: the remaining entries are the archives outside the removed set
    have hcong : (find_archives fs cache_directory).filter
        (fun f => is_file fs' f) =
        (find_archives fs cache_directory).filter
          (fun f => !(decide (f ∈ ((evictionOrder fs cache_directory).take
            ((find_archives fs cache_directory).length - cache_limit.toNat)).map
              Prod.snd))) := by
      apply List.filter_congr
      intro f hfmem
      by_cases hin : f ∈ ((evictionOrder fs cache_directory).take
          ((find_archives fs cache_directory).length - cache_limit.toNat)).map
            Prod.snd
      · obtain ⟨e, he, hfe⟩ := List.mem_map.mp hin
        have := hgone f ⟨e, he, Or.inl hfe.symm⟩
        unfold is_file
        rw [this, decide_eq_true hin]
        rfl
      · have hne : ∀ e ∈ (evictionOrder fs cache_directory).take
            ((find_archives fs cache_directory).length - cache_limit.toNat),
            f ≠ e.2 ∧ f ≠ get_metadata_file e.2 := by
          intro e he
          have hfne : f ≠ e.2 := by
            intro hcon
            exact hin (List.mem_map.mpr ⟨e, he, hcon.symm⟩)
          exact ⟨hfne, archive_ne_metadata hfmem hfne⟩
        have := hkeep f hne
        unfold is_file
        rw [this]
        have := harc f hfmem
        unfold is_file at this
        rw [this, decide_eq_false hin]
        rfl
    rw [hcong]
    have hsubA : ∀ x ∈ ((evictionOrder fs cache_directory).take
        ((find_archives fs cache_directory).length - cache_limit.toNat)).map
          Prod.snd, x ∈ find_archives fs cache_directory := by
      intro x hx
      obtain ⟨e, he, hfe⟩ := List.mem_map.mp hx
      rw [← hfe]
      exact hsnd e he
    have hndA : (((evictionOrder fs cache_directory).take
        ((find_archives fs cache_directory).length - cache_limit.toNat)).map
          Prod.snd).Nodup := by
      have h1 : ((evictionOrder fs cache_directory).map Prod.snd).Nodup := by
        have h2 : ((evictionOrder fs cache_directory).map Prod.snd).Perm
            (find_archives fs cache_directory) := by
          have := hpermE.map Prod.snd
          rw [List.map_map] at this
          have hcomp : (Prod.snd ∘ fun f : String => (stampOrZero fs f, f)) = id := rfl
          rw [hcomp, List.map_id] at this
          exact this
        exact h2.nodup_iff.mpr hnd
      exact ((List.take_sublist _ _).map Prod.snd).nodup h1
    rw [filter_not_mem_length hnd hndA hsubA]
    rw [List.length_map, List.length_take, hlenE]
    omega

end NpmAccel

namespace NpmAccel

/-- **C3** (counterexample to the claim as stated): a cache of two entries
with limit 1, where one metadata file is malformed — the collection phase's
`read_metadata` raises, `clean_cache` aborts, and no eviction happens at
all (two entries remain, not `min(2, 1) = 1`). -/
theorem clean_cache_unreadable_aborts :
    clean_cache
      ⟨[("c/aaaaaaaaaaaaaaaaaaaaaaaaaaaaaaaaaaaaaaaa.tar", .bytes []),
        ("c/aaaaaaaaaaaaaaaaaaaaaaaaaaaaaaaaaaaaaaaa.json",
          .bytes ("not json".data.map Char.toNat)),
        ("c/bbbbbbbbbbbbbbbbbbbbbbbbbbbbbbbbbbbbbbbb.tar", .bytes [])],
        ["c"], []⟩
      "c" 1 = .error .jsonError := rfl

/-- A concrete three-entry cache (one entry without metadata, exercising the
default stamp 0) used to instantiate the eviction theorem. -/
def c3fs : FS :=
  ⟨[("c/aaaaaaaaaaaaaaaaaaaaaaaaaaaaaaaaaaaaaaaa.tar", .bytes []),
    ("c/aaaaaaaaaaaaaaaaaaaaaaaaaaaaaaaaaaaaaaaa.json",
      .bytes ((jsonDumps (.obj [("last-accessed".data, .num 1)])).map Char.toNat)),
    ("c/bbbbbbbbbbbbbbbbbbbbbbbbbbbbbbbbbbbbbbbb.tar", .bytes []),
    ("c/bbbbbbbbbbbbbbbbbbbbbbbbbbbbbbbbbbbbbbbb.json",
      .bytes ((jsonDumps (.obj [("last-accessed".data, .num 2)])).map Char.toNat)),
    ("c/cccccccccccccccccccccccccccccccccccccccc.tar", .bytes [])], ["c"], []⟩

theorem clean_cache_bounded_witness :
    ∃ fs', clean_cache c3fs "c" 1 = .ok fs' ∧
      pySliceTo (evictionOrder c3fs "c") (-(1 : Int)) =
        (evictionOrder c3fs "c").take
          ((find_archives c3fs "c").length - (1 : Int).toNat) ∧
      (∀ e ∈ (evictionOrder c3fs "c").take
          ((find_archives c3fs "c").length - (1 : Int).toNat),
        is_file fs' e.2 = false ∧ is_file fs' (get_metadata_file e.2) = false) ∧
      (∀ p, (∀ e ∈ (evictionOrder c3fs "c").take
          ((find_archives c3fs "c").length - (1 : Int).toNat),
          p ≠ e.2 ∧ p ≠ get_metadata_file e.2) →
        readFileD fs' p = readFileD c3fs p) ∧
      ((find_archives c3fs "c").filter (fun f => is_file fs' f)).length =
        min (find_archives c3fs "c").length (1 : Int).toNat :=
  clean_cache_bounded c3fs "c" 1 (by decide) rfl
    (by
      intro f hf
      have hfa : find_archives c3fs "c" =
          ["c/aaaaaaaaaaaaaaaaaaaaaaaaaaaaaaaaaaaaaaaa.tar",
           "c/bbbbbbbbbbbbbbbbbbbbbbbbbbbbbbbbbbbbbbbb.tar",
           "c/cccccccccccccccccccccccccccccccccccccccc.tar"] := rfl
      rw [hfa] at hf
      rcases List.mem_cons.mp hf with rfl | hf
      · exact ⟨1, rfl⟩
      rcases List.mem_cons.mp hf with rfl | hf
      · exact ⟨2, rfl⟩
      rcases List.mem_cons.mp hf with rfl | hf
      · exact ⟨0, rfl⟩
      exact absurd hf (by simp))
    (by decide) (by decide) (by decide) (by decide)

end NpmAccel

namespace NpmAccel

/-! ## C10 support: path disjointness and frame lemmas -/

theorem natDecimal_last_digit (n : Nat) :
    ∀ c, (natDecimal n).getLast? = some c → c ∈ "0123456789".data := by
  intro c hc
  unfold natDecimal natDecimalAux at hc
  split at hc
  · have hn : n < 10 := by assumption
    simp only [List.getLast?_singleton, Option.some.injEq] at hc
    subst hc
    interval_cases n <;> decide
  · rw [List.getLast?_concat] at hc
    have h10 : n % 10 < 10 := Nat.mod_lt _ (by omega)
    have hc' := Option.some.inj hc
    subst hc'
    interval_cases h : n % 10 <;> decide

theorem pkg_last2 (directory : String) :
    last2 (directory ++ "/package.json").data = some ('o', 'n') := by
  rw [String.data_append]
  rw [show "/package.json".data = "/package.js".data ++ ['o', 'n'] from rfl,
    ← List.append_assoc]
  exact last2_append _ 'o' 'n'

theorem pkg_getLast (directory : String) :
    (directory ++ "/package.json").data.getLast? = some 'n' := by
  rw [String.data_append]
  rw [show "/package.json".data = "/package.jso".data ++ ['n'] from rfl,
    ← List.append_assoc]
  exact List.getLast?_concat _

/-- The project's `package.json` path never coincides with an archive name
yielded by `find_archives` (the suffixes differ). -/
theorem pkg_ne_archive {fs : FS} {cdir f : String}
    (hf : f ∈ find_archives fs cdir) (directory : String) :
    (directory ++ "/package.json") ≠ f := by
  intro h
  rcases archive_suffix hf with ⟨a, r, ha, hr, h2⟩ | ⟨r, hr, h2⟩
  · rw [← h, pkg_last2] at h2
    have := Option.some.inj h2
    rcases ha with rfl | rfl <;> simp at this
  · rw [← h, pkg_last2] at h2
    have := Option.some.inj h2
    simp at this

/-- The `package.json` path never equals a cache-directory path of the form
`cd/<40 hex>.json`: thirteen characters from the end, one has a slash and
the other a hexadecimal digit. -/
theorem pkg_ne_slash_hex_json (directory : String) (cdD stem : List Char)
    (hlen : stem.length = 40) (hhex : ∀ c ∈ stem, isHexDigitCI c = true) :
    (directory ++ "/package.json").data ≠ cdD ++ '/' :: (stem ++ ".json".data) := by
  intro h
  have hrev := congrArg List.reverse h
  rw [String.data_append] at hrev
  have hsr : 2 ≤ stem.reverse.length := by rw [List.length_reverse, hlen]; omega
  match hs : stem.reverse with
  | [] => rw [hs] at hsr; simp at hsr
  | [_] => rw [hs] at hsr; simp at hsr
  | s0 :: s1 :: t0 =>
    have hs1 : s1 ∈ stem := by
      rw [← List.mem_reverse, hs]
      simp
    simp only [List.reverse_append, List.reverse_cons, hs] at hrev
    simp only [List.reverse_nil, List.nil_append, List.append_assoc,
      List.singleton_append, List.cons_append, List.cons.injEq] at hrev
    obtain ⟨-, -, -, -, -, hse, hsg, -⟩ := hrev
    rw [← hsg] at hs1
    exact absurd (hhex 'g' hs1) (by decide)

theorem subTarJson_concat (X : List Char) :
    subTarJson (X ++ ".tar".data) = X ++ ".json".data := by
  unfold subTarJson
  have hlen : (X ++ ".tar".data).length = X.length + 4 := by simp
  rw [if_pos ⟨by omega, by
    rw [List.drop_left' (show X.length = (X ++ ".tar".data).length - 4 by omega)]⟩]
  rw [List.take_left' (show X.length = (X ++ ".tar".data).length - 4 by omega)]

theorem subTarJson_concat5 (X : List Char) :
    subTarJson (X ++ ".tar\n".data) = X ++ ".json\n".data := by
  unfold subTarJson
  have hlen : (X ++ ".tar\n".data).length = X.length + 5 := by simp
  rw [if_neg, if_pos ⟨by omega, by
    rw [List.drop_left' (show X.length = (X ++ ".tar\n".data).length - 5 by omega)]⟩]
  · rw [List.take_left' (show X.length = (X ++ ".tar\n".data).length - 5 by omega)]
  · rintro ⟨_, hdrop⟩
    rw [show X ++ ".tar\n".data = (X ++ ['.']) ++ ['t', 'a', 'r', '\n'] from by simp,
      List.drop_left' (show (X ++ ['.']).length = ((X ++ ['.']) ++ ['t', 'a', 'r', '\n']).length - 4 by simp)] at hdrop
    simp at hdrop

end NpmAccel

namespace NpmAccel

/-- The project's `package.json` path never equals the metadata sidecar path
of any archive yielded by `find_archives`: either the `.tar` suffix is
rewritten to `.json` — and then a hexadecimal fingerprint character clashes
with the slash before `package.json` — or `re.sub` leaves the name unchanged
and the archive suffixes differ from `.json`. -/
theorem pkg_ne_archive_metadata {fs : FS} {cdir f : String}
    (hf : f ∈ find_archives fs cdir) (directory : String) :
    (directory ++ "/package.json") ≠ get_metadata_file f := by
  have hf' := hf
  unfold find_archives at hf
  rw [List.mem_filterMap] at hf
  obtain ⟨entry, hmem, hsome⟩ := hf
  by_cases hpat : archivePattern entry.data = true
  case neg => rw [if_neg hpat] at hsome; exact Option.noConfusion hsome
  rw [if_pos hpat] at hsome
  have hfdata : f.data = cdir.data ++ '/' :: entry.data := by
    rw [← Option.some.inj hsome]
    simp [String.data_append, List.append_assoc]
  unfold archivePattern at hpat
  simp only [Bool.or_eq_true, Bool.and_eq_true, beq_iff_eq] at hpat
  rcases hpat with hcore | ⟨hlast, hcore⟩
  · obtain ⟨stem, t, a, r, hname, hstemlen, hstemhex, ht, ha, hr⟩ :=
      (archivePatternCore_iff entry.data).mp hcore
    by_cases hlow : t = 't' ∧ a = 'a' ∧ r = 'r'
    · obtain ⟨rfl, rfl, rfl⟩ := hlow
      have hfd2 : f.data = (cdir.data ++ '/' :: stem) ++ ".tar".data := by
        rw [hfdata, hname]; simp
      intro hcon
      have hd := congrArg String.data hcon
      rw [show (get_metadata_file f).data = subTarJson f.data from rfl, hfd2,
        subTarJson_concat, List.append_assoc, List.cons_append] at hd
      exact pkg_ne_slash_hex_json directory cdir.data stem hstemlen hstemhex hd
    · have hfd2 : f.data = (cdir.data ++ '/' :: stem) ++ ['.', t, a, r] := by
        rw [hfdata, hname]; simp
      have hc1 : ¬(f.data.length ≥ 4 ∧
          f.data.drop (f.data.length - 4) = ".tar".data) := by
        rintro ⟨-, hdrop⟩
        rw [hfd2, List.drop_left' (show (cdir.data ++ '/' :: stem).length =
          ((cdir.data ++ '/' :: stem) ++ ['.', t, a, r]).length - 4 by simp <;> omega)] at hdrop
        rw [show ".tar".data = ['.', 't', 'a', 'r'] from rfl] at hdrop
        simp only [List.cons.injEq, and_true] at hdrop
        exact hlow ⟨hdrop.2.1, hdrop.2.2.1, hdrop.2.2.2⟩
      have hc2 : ¬(f.data.length ≥ 5 ∧
          f.data.drop (f.data.length - 5) = ".tar\n".data) := by
        rintro ⟨h5, hdrop⟩
        have h1 : f.data.getLast? = some '\n' := by
          conv_lhs => rw [← List.take_append_drop (f.data.length - 5) f.data, hdrop]
          rw [show ".tar\n".data = ['.', 't', 'a', 'r'] ++ ['\n'] from rfl,
            ← List.append_assoc, List.getLast?_concat]
        have h2 : f.data.getLast? = some r := by
          rw [show f.data = ((cdir.data ++ '/' :: stem) ++ ['.', t, a]) ++ [r] from
            by rw [hfd2]; simp, List.getLast?_concat]
        rw [h1] at h2
        have h3 := Option.some.inj h2
        rcases hr with rfl | rfl <;> exact absurd h3 (by decide)
      have hmf : get_metadata_file f = f := by
        apply String.ext
        show subTarJson f.data = f.data
        unfold subTarJson
        rw [if_neg hc1, if_neg hc2]
      intro hcon
      rw [hmf] at hcon
      exact pkg_ne_archive hf' directory hcon
  · obtain ⟨stem, t, a, r, hname, hstemlen, hstemhex, ht, ha, hr⟩ :=
      (archivePatternCore_iff entry.data.dropLast).mp hcore
    have hdl : entry.data = (stem ++ ['.', t, a, r]) ++ ['\n'] := by
      rcases entry.data.eq_nil_or_concat with hnil | ⟨xs, x, hx⟩
      · rw [hnil] at hlast; simp at hlast
      · rw [hx, List.concat_eq_append] at hlast hname ⊢
        rw [List.getLast?_concat] at hlast
        rw [List.dropLast_concat] at hname
        rw [hname, Option.some.inj hlast]
    have hfd2 : f.data = ((cdir.data ++ '/' :: stem) ++ ['.', t, a, r]) ++ ['\n'] := by
      rw [hfdata, hdl]; simp
    have hlastf : f.data.getLast? = some '\n' := by
      rw [hfd2, List.getLast?_concat]
    have hc1 : ¬(f.data.length ≥ 4 ∧
        f.data.drop (f.data.length - 4) = ".tar".data) := by
      rintro ⟨-, hdrop⟩
      have h1 : f.data.getLast? = some 'r' := by
        conv_lhs => rw [← List.take_append_drop (f.data.length - 4) f.data, hdrop]
        rw [show ".tar".data = ['.', 't', 'a'] ++ ['r'] from rfl,
          ← List.append_assoc, List.getLast?_concat]
      rw [hlastf] at h1
      exact absurd (Option.some.inj h1) (by decide)
    by_cases hlow : t = 't' ∧ a = 'a' ∧ r = 'r'
    · obtain ⟨rfl, rfl, rfl⟩ := hlow
      have hfd3 : f.data = (cdir.data ++ '/' :: stem) ++ ".tar\n".data := by
        rw [hfd2]; simp
      intro hcon
      have hd := congrArg String.data hcon
      rw [show (get_metadata_file f).data = subTarJson f.data from rfl, hfd3,
        subTarJson_concat5] at hd
      have hl2 : last2 (directory ++ "/package.json").data = some ('n', '\n') := by
        rw [hd, show ".json\n".data = ['.', 'j', 's', 'o'] ++ ['n', '\n'] from rfl,
          ← List.append_assoc, last2_append]
      rw [pkg_last2] at hl2
      exact absurd (Option.some.inj hl2) (by decide)
    · have hc2 : ¬(f.data.length ≥ 5 ∧
          f.data.drop (f.data.length - 5) = ".tar\n".data) := by
        rintro ⟨-, hdrop⟩
        rw [hfd2, show ((cdir.data ++ '/' :: stem) ++ ['.', t, a, r]) ++ ['\n'] =
          (cdir.data ++ '/' :: stem) ++ ['.', t, a, r, '\n'] from by simp] at hdrop
        rw [List.drop_left' (show (cdir.data ++ '/' :: stem).length =
          ((cdir.data ++ '/' :: stem) ++ ['.', t, a, r, '\n']).length - 5 by simp <;> omega)] at hdrop
        rw [show ".tar\n".data = ['.', 't', 'a', 'r', '\n'] from rfl] at hdrop
        simp only [List.cons.injEq, and_true] at hdrop
        exact hlow ⟨hdrop.2.1, hdrop.2.2.1, hdrop.2.2.2⟩
      have hmf : get_metadata_file f = f := by
        apply String.ext
        show subTarJson f.data = f.data
        unfold subTarJson
        rw [if_neg hc1, if_neg hc2]
      intro hcon
      rw [hmf] at hcon
      exact pkg_ne_archive hf' directory hcon

end NpmAccel

namespace NpmAccel

theorem underDir_nm_pkg (directory : String) :
    underDir (directory ++ "/node_modules") (directory ++ "/package.json") = false := by
  unfold underDir
  rw [Bool.or_eq_false_iff]
  constructor
  · apply beq_eq_false_iff_ne.mpr
    intro h
    have hd := congrArg String.data h
    rw [String.data_append, String.data_append] at hd
    exact absurd (List.append_cancel_left hd) (by decide)
  · cases hp : ((directory ++ "/node_modules").data ++ ['/']).isPrefixOf
        (directory ++ "/package.json").data
    · rfl
    · exfalso
      have hle := (List.isPrefixOf_iff_prefix.mp hp).length_le
      rw [String.data_append, String.data_append, List.length_append,
        List.length_append, List.length_append] at hle
      have h13 : ("/node_modules".data).length = 13 := rfl
      have h13' : ("/package.json".data).length = 13 := rfl
      rw [h13, h13'] at hle
      simp at hle

theorem rmF1_fst_frame (fs : FS) (p q : String) (h : q ≠ p) :
    readFileD (rmF1 fs p).1 q = readFileD fs q := by
  unfold rmF1
  split
  · split
    · rfl
    · show List.lookup q (removeFile fs.files p) = _
      exact readFileD_removeFile_other _ _ _ h
  · split
    · rfl
    · rfl

theorem rm_f_foldl_frame :
    ∀ (ps : List String) (fs : FS) (b : Bool) (q : String), (∀ p ∈ ps, q ≠ p) →
      readFileD (ps.foldl (fun (acc : FS × Bool) p =>
        let r := rmF1 acc.1 p
        (r.1, acc.2 && r.2)) (fs, b)).1 q = readFileD fs q := by
  intro ps
  induction ps with
  | nil => intro fs b q _; rfl
  | cons p rest ih =>
    intro fs b q hq
    rw [List.foldl_cons]
    rw [ih (rmF1 fs p).1 _ q (fun x hx => hq x (by simp [hx]))]
    exact rmF1_fst_frame fs p q (hq p (by simp))

theorem rm_f_frame {fs fs' : FS} {ps : List String} (h : rm_f fs ps = .ok fs')
    (q : String) (hq : ∀ p ∈ ps, q ≠ p) : readFileD fs' q = readFileD fs q := by
  unfold rm_f at h
  simp only [] at h
  split at h
  · rw [← Except.ok.inj h]
    exact rm_f_foldl_frame ps fs true q hq
  · exact Except.noConfusion h

theorem clean_fold_frame :
    ∀ (rem : List (Int × String)) (fs fs' : FS),
      rem.foldlM (fun acc e => rm_f acc [e.2, get_metadata_file e.2]) fs = .ok fs' →
      ∀ q, (∀ e ∈ rem, q ≠ e.2 ∧ q ≠ get_metadata_file e.2) →
        readFileD fs' q = readFileD fs q := by
  intro rem
  induction rem with
  | nil =>
    intro fs fs' h q _
    rw [show fs' = fs from (Except.ok.inj h).symm]
  | cons e rest ih =>
    intro fs fs' h q hq
    rw [List.foldlM_cons] at h
    cases hstep : rm_f fs [e.2, get_metadata_file e.2] with
    | error err =>
      rw [hstep, except_bind_err] at h
      exact Except.noConfusion h
    | ok fs1 =>
      rw [hstep, except_bind_ok] at h
      rw [ih fs1 fs' h q (fun x hx => hq x (by simp [hx]))]
      refine rm_f_frame hstep q ?_
      intro x hx
      rcases List.mem_cons.mp hx with rfl | hx
      · exact (hq e (by simp)).1
      · rcases List.mem_cons.mp hx with rfl | hx
        · exact (hq e (by simp)).2
        · exact absurd hx (by simp)

theorem mapM_stamp_snd {fs : FS} :
    ∀ {l : List String} {es : List (Int × String)},
      (l.mapM (fun f => do pure ((← lastAccessedOf fs f), f)) : Except Err _) = .ok es →
      es.map Prod.snd = l := by
  intro l
  induction l with
  | nil =>
    intro es h
    rw [show es = [] from (Except.ok.inj h).symm]
    rfl
  | cons f rest ih =>
    intro es h
    rw [List.mapM_cons] at h
    cases hn : lastAccessedOf fs f with
    | error err =>
      rw [show (do pure ((← lastAccessedOf fs f), f) : Except Err (Int × String)) =
        .error err from by rw [show (do pure ((← lastAccessedOf fs f), f) :
          Except Err (Int × String)) = lastAccessedOf fs f >>= fun n =>
          pure (n, f) from rfl, hn, except_bind_err], except_bind_err] at h
      exact Except.noConfusion h
    | ok n =>
      rw [show (do pure ((← lastAccessedOf fs f), f) : Except Err (Int × String)) =
        lastAccessedOf fs f >>= fun n => pure (n, f) from rfl, hn,
        except_bind_ok, except_pure, except_bind_ok] at h
      cases hrest : (rest.mapM (fun f => do pure ((← lastAccessedOf fs f), f)) :
          Except Err (List (Int × String))) with
      | error err =>
        rw [hrest, except_bind_err] at h
        exact Except.noConfusion h
      | ok tl =>
        rw [hrest, except_bind_ok, except_pure] at h
        rw [← Except.ok.inj h, List.map_cons, ih hrest]

theorem mem_pySliceTo {α : Type} {x : α} {l : List α} {j : Int}
    (h : x ∈ pySliceTo l j) : x ∈ l := by
  unfold pySliceTo at h
  split at h <;> exact List.mem_of_mem_take h

/-- Whatever `clean_cache` deletes is an archive of the cache directory or
its metadata sidecar; every other path keeps its content. -/
theorem clean_cache_frame {fs fs' : FS} {cdir : String} {lim : Int}
    (h : clean_cache fs cdir lim = .ok fs') (q : String)
    (hq : ∀ f ∈ find_archives fs cdir, q ≠ f ∧ q ≠ get_metadata_file f) :
    readFileD fs' q = readFileD fs q := by
  unfold clean_cache at h
  cases hmap : ((find_archives fs cdir).mapM
      (fun f => do pure ((← lastAccessedOf fs f), f)) :
      Except Err (List (Int × String))) with
  | error err =>
    rw [hmap, except_bind_err] at h
    exact Except.noConfusion h
  | ok es =>
    rw [hmap, except_bind_ok] at h
    refine clean_fold_frame _ fs fs' h q ?_
    intro e he
    have he2 : e ∈ es := (List.perm_insertionSort entryLE es).mem_iff.mp
      (mem_pySliceTo he)
    have : e.2 ∈ find_archives fs cdir := by
      rw [← mapM_stamp_snd hmap]
      exact List.mem_map_of_mem Prod.snd he2
    exact hq e.2 this

end NpmAccel

namespace NpmAccel

/-- A successful `get_cache_file` returns `cache_directory/<40 hex>.tar`. -/
theorem get_cache_file_shape {ctx : Ctx} {deps : List Dep} {fic : String}
    (h : get_cache_file ctx deps = .ok fic) :
    ∃ key : List Char,
      fic.data = ctx.cache_directory.data ++ '/' :: (key ++ ".tar".data) ∧
      key.length = 40 ∧ (∀ c ∈ key, isHexDigitCI c = true) := by
  unfold get_cache_file at h
  cases hk : get_cache_key deps ctx.nodejs_version ctx.installer_version with
  | none => rw [hk] at h; exact Except.noConfusion h
  | some key =>
    rw [hk] at h
    unfold get_cache_key at hk
    cases hm : cacheKeyMessage deps ctx.nodejs_version ctx.installer_version with
    | none => rw [hm] at hk; exact Option.noConfusion hk
    | some m =>
      rw [hm, Option.map_some'] at hk
      have hkey := Option.some.inj hk
      refine ⟨key, ?_, ?_, ?_⟩
      · rw [← Except.ok.inj h]
        show (ctx.cache_directory ++ "/" ++ (⟨key⟩ ++ ".tar")).data = _
        rw [String.data_append, String.data_append, String.data_append]
        show (ctx.cache_directory.data ++ ['/']) ++ (key ++ ".tar".data) = _
        simp [List.append_assoc]
      · rw [← hkey]
        exact toHexN_length 40 _
      · rw [← hkey]
        intro c hc
        have hmem := toHexN_mem 40 _ c hc
        have hall : ∀ c ∈ "0123456789abcdef".data, isHexDigitCI c = true := by decide
        exact hall c hmem

theorem pkg_ne_of_tar_shape (directory : String) {fic : String} {cdD key : List Char}
    (hfic : fic.data = cdD ++ '/' :: (key ++ ".tar".data)) :
    (directory ++ "/package.json") ≠ fic := by
  intro h
  have h2 := congrArg (fun s : String => last2 s.data) h
  simp only [] at h2
  rw [pkg_last2, hfic,
    show cdD ++ '/' :: (key ++ ".tar".data) =
      ((cdD ++ '/' :: key) ++ ['.', 't']) ++ ['a', 'r'] from by simp,
    last2_append] at h2
  exact absurd (Option.some.inj h2) (by decide)

theorem pkg_ne_meta_of_tar_shape (directory : String) {fic : String}
    {cdD key : List Char}
    (hfic : fic.data = cdD ++ '/' :: (key ++ ".tar".data))
    (hlen : key.length = 40) (hhex : ∀ c ∈ key, isHexDigitCI c = true) :
    (directory ++ "/package.json") ≠ get_metadata_file fic := by
  intro h
  have hd := congrArg String.data h
  rw [show (get_metadata_file fic).data = subTarJson fic.data from rfl, hfic,
    show cdD ++ '/' :: (key ++ ".tar".data) =
      (cdD ++ '/' :: key) ++ ".tar".data from by simp,
    subTarJson_concat, List.append_assoc, List.cons_append] at hd
  exact pkg_ne_slash_hex_json directory cdD key hlen hhex hd

theorem pkg_ne_tmpName (directory fic : String) (s : Nat) :
    (directory ++ "/package.json") ≠ tmpName fic s := by
  intro h
  have hd := congrArg (fun t : String => t.data.getLast?) h
  simp only [] at hd
  have htmp : (tmpName fic s).data = (fic.data ++ ['-']) ++ natDecimal s := by
    show (fic ++ "-" ++ ⟨natDecimal s⟩).data = _
    rw [String.data_append, String.data_append]
  rw [pkg_getLast, htmp, List.getLast?_append] at hd
  cases hlast : (natDecimal s).getLast? with
  | none =>
    have hnil : natDecimal s = [] := List.getLast?_eq_none_iff.mp hlast
    exact absurd hnil (natDecimalAux_ne_nil s s)
  | some c =>
    rw [hlast] at hd
    have hc := Option.some.inj hd
    have hmem := natDecimal_last_digit s c hlast
    rw [← hc] at hmem
    exact absurd hmem (by decide)

/-- A successful `add_to_cache` touches only the temporary name, the archive
path and the metadata sidecar. -/
theorem add_to_cache_frame {fs fs' : FS} {md fic : String} {s now : Nat}
    (h : add_to_cache fs md fic s now = .ok fs') (q : String)
    (h1 : q ≠ tmpName fic s) (h2 : q ≠ fic) (h3 : q ≠ get_metadata_file fic) :
    readFileD fs' q = readFileD fs q := by
  unfold add_to_cache at h
  simp only [] at h
  set fs1 := mkdir_p fs (dirName fic) with hfs1
  set payload := tarPack fs1 md with hpayload
  set fs2 := write_file fs1 (tmpName fic s) payload with hfs2
  have htmp : readFileD fs2 (tmpName fic s) = some payload :=
    readFileD_write_self fs1 _ payload
  rw [write_metadata_frame h q h3]
  unfold renameFile
  rw [htmp]
  rw [readFileD_write_other _ _ _ _ h2]
  show List.lookup q (removeFile fs2.files (tmpName fic s)) = readFileD fs q
  rw [readFileD_removeFile_other fs2.files (tmpName fic s) q h1]
  show readFileD fs2 q = readFileD fs q
  rw [hfs2, readFileD_write_other _ _ _ _ h1]
  exact readFileD_mkdir fs _ q

end NpmAccel

namespace NpmAccel

/-- **C10**: on every cache-miss path of `install` (the path that runs the
installer program), the byte content of the project's `package.json` after
`install` returns is identical to its content before the installer ran:
the content is saved before the installer is invoked and written back
afterwards, and none of the subsequent cache operations (`add_to_cache`,
`clean_cache`) can touch the `package.json` path, so whatever rewriting the
installer performed is not visible to the caller. -/
theorem install_preserves_package_json (ctx : Ctx) (fs : FS) (directory : String)
    (deps : List Dep) (file_in_cache : String)
    (hdeps : extract_dependencies fs (directory ++ "/package.json") ctx.production
      = .ok deps)
    (hne : deps ≠ [])
    (hcf : get_cache_file ctx deps = .ok file_in_cache)
    (hmiss : (ctx.read_from_cache && is_file fs file_in_cache) = false) :
    ∀ r, install ctx fs directory = .ok r →
      ∃ contents, readFileD fs (directory ++ "/package.json") = some contents ∧
        readFileD r.1 (directory ++ "/package.json") = some contents := by
  intro r hok
  unfold install at hok
  simp only [] at hok
  simp only [hdeps, except_bind_ok] at hok
  rw [if_neg hne] at hok
  simp only [hcf, except_bind_ok] at hok
  rw [if_neg (show ¬((ctx.read_from_cache && is_file fs file_in_cache) = true)
    from by rw [hmiss]; exact Bool.false_ne_true)] at hok
  cases hclear : clear_directory fs (directory ++ "/node_modules") with
  | error e =>
    rw [hclear, except_bind_err] at hok
    exact Except.noConfusion hok
  | ok fs1 =>
    rw [hclear] at hok
    simp only [except_bind_ok] at hok
    obtain ⟨hframe1, -⟩ := clear_directory_reads hclear
    cases hread : readFileD fs1 (directory ++ "/package.json") with
    | none =>
      simp only [hread] at hok
      exact Except.noConfusion hok
    | some contents =>
      simp only [hread, except_pure, except_bind_ok] at hok
      cases hinst : ctx.installer fs1 with
      | error e =>
        rw [hinst, except_bind_err] at hok
        exact Except.noConfusion hok
      | ok fs2 =>
        rw [hinst] at hok
        simp only [except_bind_ok] at hok
        have hpf3 : readFileD (write_file fs2 (directory ++ "/package.json") contents)
            (directory ++ "/package.json") = some contents :=
          readFileD_write_self fs2 _ contents
        obtain ⟨key, hficdata, hkeylen, hkeyhex⟩ := get_cache_file_shape hcf
        have hne_fic : (directory ++ "/package.json") ≠ file_in_cache :=
          pkg_ne_of_tar_shape directory hficdata
        have hne_meta : (directory ++ "/package.json") ≠
            get_metadata_file file_in_cache :=
          pkg_ne_meta_of_tar_shape directory hficdata hkeylen hkeyhex
        have hne_tmp := pkg_ne_tmpName directory file_in_cache ctx.tmpSuffix
        cases hw : ctx.write_to_cache with
        | false =>
          rw [hw, if_neg Bool.false_ne_true] at hok
          cases hcc : clean_cache (write_file fs2 (directory ++ "/package.json")
              contents) ctx.cache_directory ctx.cache_limit with
          | error e =>
            rw [hcc, except_bind_err] at hok
            exact Except.noConfusion hok
          | ok fs5 =>
            rw [hcc] at hok
            simp only [except_bind_ok, except_pure] at hok
            have hr := Except.ok.inj hok
            refine ⟨contents, ?_, ?_⟩
            · rw [← hframe1 _ (underDir_nm_pkg directory)]
              exact hread
            · rw [← hr]
              show readFileD fs5 (directory ++ "/package.json") = some contents
              rw [clean_cache_frame hcc _ (fun f hf =>
                ⟨pkg_ne_archive hf directory, pkg_ne_archive_metadata hf directory⟩)]
              exact hpf3
        | true =>
          rw [hw, if_pos rfl] at hok
          cases hadd : add_to_cache (write_file fs2 (directory ++ "/package.json")
              contents) (directory ++ "/node_modules") file_in_cache
              ctx.tmpSuffix ctx.now with
          | error e =>
            rw [hadd, except_bind_err] at hok
            exact Except.noConfusion hok
          | ok fs4 =>
            rw [hadd] at hok
            simp only [except_bind_ok] at hok
            cases hcc : clean_cache fs4 ctx.cache_directory ctx.cache_limit with
            | error e =>
              rw [hcc, except_bind_err] at hok
              exact Except.noConfusion hok
            | ok fs5 =>
              rw [hcc] at hok
              simp only [except_bind_ok, except_pure] at hok
              have hr := Except.ok.inj hok
              refine ⟨contents, ?_, ?_⟩
              · rw [← hframe1 _ (underDir_nm_pkg directory)]
                exact hread
              · rw [← hr]
                show readFileD fs5 (directory ++ "/package.json") = some contents
                rw [clean_cache_frame hcc _ (fun f hf =>
                  ⟨pkg_ne_archive hf directory,
                   pkg_ne_archive_metadata hf directory⟩)]
                rw [add_to_cache_frame hadd _ hne_tmp hne_fic hne_meta]
                exact hpf3

end NpmAccel

namespace NpmAccel

/-- A one-project filesystem whose `package.json` declares one dependency. -/
def c10fs : FS :=
  ⟨[("p/package.json", .bytes
      ("\x7b\"dependencies\":\x7b\"a\":\"1\"\x7d\x7d".data.map Char.toNat))], [], []⟩

/-- A configuration with caching on in both directions and an installer that
leaves the filesystem unchanged. -/
def c10ctx : Ctx :=
  { cache_directory := "c", cache_limit := 10, read_from_cache := true,
    write_to_cache := true, production := true, nodejs_version := "v4".data,
    installer_version := "3".data, installer := fun fs => .ok fs,
    tmpSuffix := 7, now := 5 }

set_option maxRecDepth 100000 in
theorem install_preserves_package_json_witness :
    (∃ r, install c10ctx c10fs "p" = .ok r) ∧
    (∀ r, install c10ctx c10fs "p" = .ok r →
      ∃ contents,
        readFileD c10fs ("p" ++ "/package.json") = some contents ∧
        readFileD r.1 ("p" ++ "/package.json") = some contents) :=
  ⟨⟨_, rfl⟩,
    install_preserves_package_json c10ctx c10fs "p" [("a".data, "1".data)]
      "c/249403d814d971f528831d0b65c93d380dbf9ee2.tar" rfl (by decide) rfl
      (by decide)⟩

end NpmAccel
